import Mathlib

/-!
Verification of the proxybench core (package `checker` and package `bench`).

Go strings are modelled as lists of bytes (`List Nat`, every element < 256);
Go's `time.Duration` / millisecond latencies as `Nat`; Go's `float64` loss
rate as an exact rational (`Rat`); network effects (dial, HTTP round trips)
as explicit oracle parameters.  Each definition follows the corresponding Go
function; restrictions of the model (bracket-free hosts, no percent escapes,
abbreviated error payloads) are recorded in the doc comments.
-/

/-- Go byte string: a list of byte values. -/
abbrev GoStr := List Nat

/-- Byte list of an ASCII string literal (used to write Go string constants). -/
def gs (s : String) : GoStr := s.data.map Char.toNat

/-! ### Base64 (mirrors Go `encoding/base64`)

`b64CharStd` / `b64CharURL` map a sextet (0..63) to the byte of the standard
respectively URL-safe alphabet; `b64IndexStd` / `b64IndexURL` are the partial
inverses used when decoding.  `b64Encode ch pad` is `Encoding.EncodeToString`
(with `pad = true` for `StdEncoding`, `pad = false` for the `Raw` encodings);
`b64DecodeRaw` is `RawStdEncoding`/`RawURLEncoding` `DecodeString` and
`b64DecodePad` is `StdEncoding.DecodeString`.  Like Go's non-strict decoder,
trailing unused bits are discarded; inputs never contain the newline bytes Go
would skip. -/

/-- Standard base64 alphabet: sextet to byte. -/
def b64CharStd (i : Nat) : Nat :=
  if i < 26 then 65 + i
  else if i < 52 then 71 + i
  else if i < 62 then i - 4
  else if i = 62 then 43
  else 47

/-- URL-safe base64 alphabet: sextet to byte (differs at 62 and 63). -/
def b64CharURL (i : Nat) : Nat :=
  if i < 62 then b64CharStd i
  else if i = 62 then 45
  else 95

/-- Standard base64 alphabet: byte to sextet, `none` off-alphabet. -/
def b64IndexStd (c : Nat) : Option Nat :=
  if 65 ≤ c ∧ c ≤ 90 then some (c - 65)
  else if 97 ≤ c ∧ c ≤ 122 then some (c - 71)
  else if 48 ≤ c ∧ c ≤ 57 then some (c + 4)
  else if c = 43 then some 62
  else if c = 47 then some 63
  else none

/-- URL-safe base64 alphabet: byte to sextet, `none` off-alphabet. -/
def b64IndexURL (c : Nat) : Option Nat :=
  if c = 45 then some 62
  else if c = 95 then some 63
  else if c = 43 ∨ c = 47 then none
  else b64IndexStd c

/-- Base64 encoding over alphabet `ch`, with (`pad = true`) or without padding. -/
def b64Encode (ch : Nat → Nat) (pad : Bool) : GoStr → GoStr
  | [] => []
  | [a] => [ch (a / 4), ch (a % 4 * 16)] ++ (if pad then [61, 61] else [])
  | [a, b] =>
      [ch (a / 4), ch (a % 4 * 16 + b / 16), ch (b % 16 * 4)] ++ (if pad then [61] else [])
  | a :: b :: c :: rest =>
      ch (a / 4) :: ch (a % 4 * 16 + b / 16) :: ch (b % 16 * 4 + c / 64) :: ch (c % 64) ::
        b64Encode ch pad rest

/-- Unpadded base64 decoding over alphabet inverse `idx` (Go `Raw...Encoding`). -/
def b64DecodeRaw (idx : Nat → Option Nat) : GoStr → Option GoStr
  | [] => some []
  | [_] => none
  | [c1, c2] =>
      match idx c1, idx c2 with
      | some s1, some s2 => some [s1 * 4 + s2 / 16]
      | _, _ => none
  | [c1, c2, c3] =>
      match idx c1, idx c2, idx c3 with
      | some s1, some s2, some s3 => some [s1 * 4 + s2 / 16, s2 % 16 * 16 + s3 / 4]
      | _, _, _ => none
  | c1 :: c2 :: c3 :: c4 :: rest =>
      match idx c1, idx c2, idx c3, idx c4, b64DecodeRaw idx rest with
      | some s1, some s2, some s3, some s4, some tail =>
          some ((s1 * 4 + s2 / 16) :: (s2 % 16 * 16 + s3 / 4) :: (s3 % 4 * 64 + s4) :: tail)
      | _, _, _, _, _ => none

/-- Padded base64 decoding over alphabet inverse `idx` (Go `StdEncoding`);
byte 61 is the padding character, only legal at the very end. -/
def b64DecodePad (idx : Nat → Option Nat) : GoStr → Option GoStr
  | [] => some []
  | c1 :: c2 :: c3 :: c4 :: rest =>
      if c3 = 61 ∧ c4 = 61 ∧ rest = [] then
        match idx c1, idx c2 with
        | some s1, some s2 => some [s1 * 4 + s2 / 16]
        | _, _ => none
      else if c4 = 61 ∧ rest = [] then
        match idx c1, idx c2, idx c3 with
        | some s1, some s2, some s3 => some [s1 * 4 + s2 / 16, s2 % 16 * 16 + s3 / 4]
        | _, _, _ => none
      else
        match idx c1, idx c2, idx c3, idx c4, b64DecodePad idx rest with
        | some s1, some s2, some s3, some s4, some tail =>
            some ((s1 * 4 + s2 / 16) :: (s2 % 16 * 16 + s3 / 4) :: (s3 % 4 * 64 + s4) :: tail)
        | _, _, _, _, _ => none
  | _ => none

/-! ### Go string helpers (`strings`, `net`, `net/url` building blocks) -/

/-- Longest initial segment not containing byte `b`; models cutting a string
at the first occurrence of `b` (e.g. stripping at the first `#`). -/
def upToFirst (b : Nat) (s : GoStr) : GoStr := s.takeWhile (fun c => c != b)

/-- Go `strings.SplitN(s, sep, 2)` for a one-byte separator: `none` when the
separator is absent (Go then yields a single part). -/
def splitN2 (b : Nat) (s : GoStr) : Option (GoStr × GoStr) :=
  if s.contains b then some (s.takeWhile (fun c => c != b), (s.dropWhile (fun c => c != b)).tail)
  else none

/-- Split at the last occurrence of byte `b`: Go `strings.LastIndexByte`
followed by taking the part before and the part after that index. -/
def splitLast (b : Nat) : GoStr → Option (GoStr × GoStr)
  | [] => none
  | c :: rest =>
      match splitLast b rest with
      | some (x, y) => some (c :: x, y)
      | none => if c = b then some ([], rest) else none

/-- Decimal digit byte. -/
def isDigitByte (c : Nat) : Bool := 48 ≤ c && c ≤ 57

/-- Host bytes used in this development: letters, digits, dot, hyphen. -/
def isHostByte (c : Nat) : Bool :=
  (48 ≤ c && c ≤ 57) || (65 ≤ c && c ≤ 90) || (97 ≤ c && c ≤ 122) || c == 45 || c == 46

/-! ### Model of Go `net/url.Parse` (restricted)

`urlParseModel` models `url.Parse` on absolute URLs of the shape
`scheme://[userinfo@]host[/...][?...][#...]`, which covers every address this
repository hands to it.  Faithful pieces: fragment cut at the first `#` and
validation of its percent escapes (Go's `setFragment` fails on a malformed
escape), authority ending at the first `/` or `?`, userinfo split at the
last `@`, validated with Go's `validUserinfo` table and for well-formed
percent escapes, with `Username()` returning the unescaped bytes, and the
digits-only check on the part after the last `:` of the host.  Model
restrictions (documented, not Go errors in general): URLs without `://`,
hosts containing `[`, `]` or percent escapes, and control bytes are mapped
to `none`; all inputs appearing in the theorems below stay inside the
modelled fragment. -/

/-- Hexadecimal digit byte. -/
def isHexByte (c : Nat) : Bool :=
  (48 ≤ c && c ≤ 57) || (65 ≤ c && c ≤ 70) || (97 ≤ c && c ≤ 102)

/-- Value of a hexadecimal digit byte. -/
def hexVal (c : Nat) : Nat :=
  if 48 ≤ c && c ≤ 57 then c - 48
  else if 65 ≤ c && c ≤ 70 then c - 55
  else if 97 ≤ c && c ≤ 102 then c - 87
  else 0

/-- Go `url.unescape` succeeds: every `%` is followed by two hex digits. -/
def validEscapes : GoStr → Bool
  | [] => true
  | c :: rest =>
      if c = 37 then
        match rest with
        | h1 :: h2 :: rest2 => isHexByte h1 && isHexByte h2 && validEscapes rest2
        | _ => false
      else validEscapes rest

/-- Go `url.unescape` on a string whose escapes are well formed (guarded by
`validEscapes` before use): `%XY` becomes the byte `XY`. -/
def unescapeBytes : GoStr → GoStr
  | [] => []
  | c :: rest =>
      if c = 37 then
        match rest with
        | h1 :: h2 :: rest2 => (hexVal h1 * 16 + hexVal h2) :: unescapeBytes rest2
        | _ => []
      else c :: unescapeBytes rest

/-- Bytes Go's `validUserinfo` accepts in the userinfo component. -/
def validUserinfoByte (c : Nat) : Bool :=
  (65 ≤ c && c ≤ 90) || (97 ≤ c && c ≤ 122) || (48 ≤ c && c ≤ 57) ||
  c == 45 || c == 46 || c == 95 || c == 58 || c == 126 || c == 33 || c == 36 ||
  c == 38 || c == 39 || c == 40 || c == 41 || c == 42 || c == 43 || c == 44 ||
  c == 59 || c == 61 || c == 37 || c == 64

/-- Bytes acceptable in a URL scheme. -/
def isSchemeByte (c : Nat) : Bool :=
  (65 ≤ c && c ≤ 90) || (97 ≤ c && c ≤ 122) || (48 ≤ c && c ≤ 57) ||
  c == 43 || c == 45 || c == 46

deriving instance DecidableEq for Except

/-- Result of `url.Parse` restricted to the fields the repository reads:
`user` is `u.User.Username()` when a userinfo component is present, `host`
is `u.Host` (still in `host:port` form). -/
structure URLView where
  user : Option GoStr
  host : GoStr
deriving DecidableEq

/-- Go `url.parseHost` on a bracket-free, escape-free host: the part after
the last `:` (if any) must be all digits, otherwise `url.Parse` fails with
an invalid-port error. -/
def parseHostModel (s : GoStr) : Option GoStr :=
  if s.contains 91 || s.contains 93 || s.contains 37 then none
  else
    match splitLast 58 s with
    | some (_, port) => if port.all isDigitByte then some s else none
    | none => some s

/-- Model of `url.Parse` (see the section comment for its exact scope). -/
def urlParseModel (raw : GoStr) : Option URLView :=
  if raw.any (fun c => c < 32 || c == 127) then none
  else
    match splitN2 58 raw with
    | none => none
    | some (scheme, rest) =>
      if scheme = [] || !scheme.all isSchemeByte then none
      else if rest.take 2 ≠ [47, 47] then none
      else
        let body := rest.drop 2
        let frag := (body.dropWhile (fun c => c != 35)).tail
        if !validEscapes frag then none
        else
          let rest2 := upToFirst 35 body
          let authority := rest2.takeWhile (fun c => c != 47 && c != 63)
          match splitLast 64 authority with
          | some (userinfo, hostport) =>
            if userinfo.all validUserinfoByte && validEscapes userinfo then
              (parseHostModel hostport).map
                (fun h => ⟨some (unescapeBytes (upToFirst 58 userinfo)), h⟩)
            else none
          | none => (parseHostModel authority).map (fun h => ⟨none, h⟩)

/-! ### Package `checker` -/

/-- Result of `net.SplitHostPort` (bracket-free case): split at the last
colon; fails when there is no colon, a second colon, or any bracket. -/
def splitHostPort (s : GoStr) : Option (GoStr × GoStr) :=
  match splitLast 58 s with
  | none => none
  | some (host, port) =>
    if host.contains 58 || s.contains 91 || s.contains 93 then none
    else some (host, port)

/-- Parsed Shadowsocks connection parameters (`checker.ShadowsocksConfig`). -/
structure ShadowsocksConfig where
  Host : GoStr
  Port : GoStr
  Method : GoStr
  Password : GoStr
deriving DecidableEq

/-- Model of `checker.ParseShadowsocksURL`.  Error payloads are abbreviated
to the stable text of the corresponding `fmt.Errorf` format string (the
wrapped inner error text is dropped). -/
def ParseShadowsocksURL (raw : GoStr) : Except GoStr ShadowsocksConfig :=
  match urlParseModel raw with
  | none => .error (gs "parse url")
  | some u =>
    match u.user with
    | some userInfo =>
      let decodedOpt :=
        match b64DecodeRaw b64IndexURL userInfo with
        | some d => some d
        | none => b64DecodePad b64IndexStd userInfo
      match decodedOpt with
      | none => .error (gs "base64 decode userinfo")
      | some decoded =>
        match splitN2 58 decoded with
        | none => .error (gs "invalid method:password in userinfo")
        | some (m, p) =>
          match splitHostPort u.host with
          | none => .error (gs "host:port")
          | some (h, pt) => .ok ⟨h, pt, m, p⟩
    | none =>
      let body := if raw.take 5 = gs "ss://" then raw.drop 5 else raw
      let fragment := upToFirst 35 body
      let decodedOpt :=
        match b64DecodePad b64IndexStd fragment with
        | some d => some d
        | none => b64DecodeRaw b64IndexStd fragment
      match decodedOpt with
      | none => .error (gs "base64 decode legacy")
      | some decoded =>
        match splitLast 64 decoded with
        | none => .error (gs "missing @ in legacy ss URI")
        | some (methodPass, hostPort) =>
          match splitN2 58 methodPass with
          | none => .error (gs "invalid method:password")
          | some (m, p) =>
            match splitHostPort hostPort with
            | none => .error (gs "host:port legacy")
            | some (h, pt) => .ok ⟨h, pt, m, p⟩

/-- Proxy protocol tag (`checker.Protocol`). -/
inductive Protocol where
  | http
  | https
  | socks5
  | shadowsocks
  | unknown
deriving DecidableEq

/-- Outcome of a proxy check (`checker.Result`); `Error = []` models Go's
empty error string. -/
structure CheckResult where
  Address : GoStr
  Protocol : Protocol
  Alive : Bool
  Latency : Nat
  Error : GoStr
deriving DecidableEq

/-- Model of `checker.CheckShadowsocks`: parse, then (only on success) one
TCP dial whose outcome is the oracle `net` — an error message or the
measured connect latency.  On parse failure no oracle is consulted. -/
def CheckShadowsocks (address : GoStr) (net : Except GoStr Nat) : CheckResult :=
  match ParseShadowsocksURL address with
  | .error e => ⟨address, .shadowsocks, false, 0, gs "parse: " ++ e⟩
  | .ok _cfg =>
    match net with
    | .error e => ⟨address, .shadowsocks, false, 0, gs "tcp: " ++ e⟩
    | .ok lat => ⟨address, .shadowsocks, true, lat, []⟩

/-- Model of `checker.CheckSOCKS5`.  Oracles: `tcp` is the phase-1
`tcpProbe` outcome (its error already carries the `tcp dial: ` wrap),
`dialerOk` whether `proxy.FromURL` succeeds, `fwd` the phase-2 proxied
HTTP GET outcome (error message, or elapsed latency). -/
def CheckSOCKS5 (address : GoStr) (tcp : Except GoStr Nat) (dialerOk : Bool)
    (fwd : Except GoStr Nat) : CheckResult :=
  match urlParseModel address with
  | none => ⟨address, .socks5, false, 0, gs "invalid socks5 URL: parse error"⟩
  | some _u =>
    match tcp with
    | .error e => ⟨address, .socks5, false, 0, gs "tcp probe: tcp dial: " ++ e⟩
    | .ok tcpLatency =>
      if dialerOk then
        match fwd with
        | .error e => ⟨address, .socks5, false, tcpLatency, gs "forward check: " ++ e⟩
        | .ok elapsed => ⟨address, .socks5, true, elapsed, []⟩
      else ⟨address, .socks5, false, 0, gs "socks5 dialer: error"⟩

/-! ### Package `bench` -/

/-- Benchmark statistics for a single proxy (`bench.Stats`).  `Samples` keeps
Go's `int` signedness (it can store a non-positive requested count);
`LossRate`, a Go `float64` holding exact small ratios, is modelled as `Rat`. -/
structure BenchStats where
  Address : GoStr
  Samples : Int
  Successful : Nat
  MinMS : Nat
  MaxMS : Nat
  AvgMS : Nat
  P50MS : Nat
  P95MS : Nat
  LossRate : Rat
  SpeedBps : Int
deriving DecidableEq

/-- Coercion of the configured sample count inside `bench.Run`:
`if opts.Samples <= 0 { opts.Samples = 5 }`. -/
def coerceSamples (s : Int) : Nat := if s ≤ 0 then 5 else s.toNat

/-- Go `avg`: integer mean with truncating division (latencies are
non-negative milliseconds, so Go's toward-zero division is `Nat` division). -/
def avg (vals : List Nat) : Nat := vals.sum / vals.length

/-- Fuel-driven binary digit count (the fuel keeps the recursion structural,
so the kernel can evaluate it); `bitsAux fuel n` is the bit length of `n`
whenever `n ≤ fuel`. -/
def bitsAux : Nat → Nat → Nat
  | 0, _ => 0
  | fuel + 1, n => if n = 0 then 0 else bitsAux fuel (n / 2) + 1

/-- Bit length of a natural number. -/
def bitLen (n : Nat) : Nat := bitsAux n n

/-- Exponent of the binade of a positive rational:
`2 ^ flExp q ≤ q < 2 ^ (flExp q + 1)`. -/
def flExp (q : ℚ) : Int :=
  if q < (2 : ℚ) ^ ((bitLen q.num.toNat : Int) - (bitLen q.den : Int)) then
    (bitLen q.num.toNat : Int) - (bitLen q.den : Int) - 1
  else (bitLen q.num.toNat : Int) - (bitLen q.den : Int)

/-- Round a rational to the nearest integer, ties to even (the IEEE 754
default rounding direction). -/
def rte (q : ℚ) : Int :=
  if q - ⌊q⌋ < 1 / 2 then ⌊q⌋
  else if 1 / 2 < q - ⌊q⌋ then ⌊q⌋ + 1
  else if ⌊q⌋ % 2 = 0 then ⌊q⌋ else ⌊q⌋ + 1

/-- IEEE binary64 (`float64`) rounding of a non-negative rational:
round-to-nearest-even at 53 significant bits.  Negative inputs do not occur
in the modelled code; the sub-normal and overflow ranges are never reached
by the benchmark's rank computation. -/
def roundToDouble (q : ℚ) : ℚ :=
  if q ≤ 0 then 0
  else ((rte (q / (2 : ℚ) ^ (flExp q - 52)) : ℤ) : ℚ) * (2 : ℚ) ^ (flExp q - 52)

/-- `float64` division: the exact quotient, rounded. -/
def flDiv (x y : ℚ) : ℚ := roundToDouble (x / y)

/-- `float64` multiplication: the exact product, rounded. -/
def flMul (x y : ℚ) : ℚ := roundToDouble (x * y)

/-- `float64` addition: the exact sum, rounded. -/
def flAdd (x y : ℚ) : ℚ := roundToDouble (x + y)

/-- Rank used by `bench.percentile`:
`int(float64(p)/100.0*float64(len(sorted)-1) + 0.5)` with the binary64
arithmetic modelled exactly by `roundToDouble`: the literals `100.0` and
`0.5` are exact doubles, the conversions of `p` and `len-1` round (they are
exact below 2^53), each arithmetic operation rounds its exact result, and
`int` truncation toward zero on the non-negative result is the floor. -/
def goFloatRank (p n : Nat) : Nat :=
  (⌊flAdd (flMul (flDiv (roundToDouble (p : ℚ)) 100) (roundToDouble ((n - 1 : Nat) : ℚ)))
      (1 / 2)⌋).toNat

/-- Model of `bench.percentile` on an ascending-sorted sample list. -/
def percentile (sorted : List Nat) (p : Nat) : Nat :=
  if sorted.length = 0 then 0
  else
    let idx := goFloatRank p sorted.length
    if sorted.length ≤ idx then sorted.getD (sorted.length - 1) 0 else sorted.getD idx 0

/-- Rank formula exactly as the specification words it: round-half-up of
`P/100 × (count−1)`, written with rational arithmetic and a floor of `x+1/2`.
Stated from the spec, to be compared against `goFloatRank` from the code. -/
def specRank (p n : Nat) : Int := ⌊(p : ℚ) / 100 * ((n : ℚ) - 1) + 1 / 2⌋

/-- Model of `bench.measureSpeed`: the oracle is `none` when the download
request fails, otherwise the byte count and elapsed seconds; Go returns
`int64(float64(n)/elapsed)` and 0 on failure or zero elapsed time. -/
def measureSpeed (oracle : Option (Nat × Rat)) : Int :=
  match oracle with
  | none => 0
  | some (n, elapsed) => if elapsed = 0 then 0 else ⌊(n : ℚ) / elapsed⌋

/-- Benchmark options (`bench.Options`) restricted to the fields the
modelled code path reads. -/
structure BenchOptions where
  Samples : Int
  PayloadURL : GoStr

/-- Model of `bench.Run`.  `sampleOracle i` is the outcome of the i-th
`client.Get` (latency in milliseconds on success, `none` on error);
`speedOracle` feeds `measureSpeed`.  `buildClient` fails exactly when
`url.Parse` fails on the address (its other branches construct a transport
without error), which the model reads off `urlParseModel`. -/
def Run (address : GoStr) (opts : BenchOptions) (sampleOracle : Nat → Option Nat)
    (speedOracle : Option (Nat × Rat)) : BenchStats :=
  let stats0 : BenchStats :=
    ⟨address, opts.Samples, 0, 0, 0, 0, 0, 0, 0, 0⟩
  if (urlParseModel address).isNone then stats0
  else
    let s := coerceSamples opts.Samples
    let latencies := (List.range s).filterMap sampleOracle
    if latencies.isEmpty then { stats0 with LossRate := 1 }
    else
      let sorted := latencies.mergeSort
      { stats0 with
        Successful := latencies.length
        MinMS := sorted.headD 0
        MaxMS := sorted.getLastD 0
        AvgMS := avg sorted
        P50MS := percentile sorted 50
        P95MS := percentile sorted 95
        LossRate := ((s : ℚ) - (latencies.length : ℚ)) / (s : ℚ)
        SpeedBps := if opts.PayloadURL.isEmpty then 0 else measureSpeed speedOracle }

/-! ### Dispatcher (`checker.CheckMany` / `bench.RunMany`)

Both functions run one goroutine per input index; goroutine `i` computes the
probe of input `i` and writes it into slot `i` of a pre-sized result slice.
`dispatchExec` replays that execution for an arbitrary completion order
`order` (the sequence in which the slot writes land): slots start as `none`
and each write stores the probe result of its own index. -/

/-- Replay of the dispatcher's slot writes under completion order `order`,
for a per-address probe `f` (`checker.Check` resp. `bench.Run` with their
configuration and network oracles fixed). -/
def dispatchExec {α : Type} (f : GoStr → α) (addrs : List GoStr) (order : List Nat) :
    List (Option α) :=
  order.foldl (fun acc idx => acc.set idx (some (f (addrs.getD idx []))))
    (List.replicate addrs.length none)

/-! ### Admission gate (`sem := make(chan struct{}, C)`)

`checker.CheckMany` coerces a non-positive concurrency limit to 10 and makes
a buffered channel of that capacity; each task sends into the channel before
probing and receives after.  The transition system below is that semaphore
discipline: `start` admits a pending task while fewer than `cap` run,
`finish` retires a running task. -/

/-- Counters of the dispatcher's task pool. -/
structure DispatchState where
  pending : Nat
  running : Nat
  done : Nat
deriving DecidableEq

/-- Coercion in `CheckMany`: `if opts.Concurrency <= 0 { opts.Concurrency = 10 }`. -/
def coerceConcurrency (c : Int) : Nat := if c ≤ 0 then 10 else c.toNat

/-- One scheduler step of the semaphore-bounded task pool. -/
inductive DispatchStep (cap : Nat) : DispatchState → DispatchState → Prop
  | start (p r d : Nat) : r < cap → DispatchStep cap ⟨p + 1, r, d⟩ ⟨p, r + 1, d⟩
  | finish (p r d : Nat) : DispatchStep cap ⟨p, r + 1, d⟩ ⟨p, r, d + 1⟩

/-- States reachable from the initial state with `n` queued probes. -/
inductive DispatchReachable (cap n : Nat) : DispatchState → Prop
  | init : DispatchReachable cap n ⟨n, 0, 0⟩
  | step {s t : DispatchState} :
      DispatchReachable cap n s → DispatchStep cap s t → DispatchReachable cap n t
/-! ### Helper lemmas: list splitting -/

theorem takeWhile_all {p : Nat → Bool} : ∀ {s : GoStr}, (∀ c ∈ s, p c = true) →
    s.takeWhile p = s
  | [], _ => rfl
  | c :: rest, h => by
      have hc : p c = true := h c (by simp)
      simp only [List.takeWhile, hc]
      exact congrArg (c :: ·) (takeWhile_all (fun x hx => h x (by simp [hx])))

theorem upToFirst_all {b : Nat} {s : GoStr} (h : ∀ c ∈ s, c ≠ b) :
    upToFirst b s = s :=
  takeWhile_all (fun c hc => by simpa using h c hc)

theorem dropWhile_all {p : Nat → Bool} : ∀ {s : GoStr}, (∀ c ∈ s, p c = true) →
    s.dropWhile p = []
  | [], _ => rfl
  | c :: rest, h => by
      have hc : p c = true := h c (by simp)
      simp only [List.dropWhile, hc]
      exact dropWhile_all (fun x hx => h x (by simp [hx]))

theorem validEscapes_of_no_pct : ∀ {s : GoStr}, (∀ c ∈ s, c ≠ 37) →
    validEscapes s = true
  | [], _ => rfl
  | c :: rest, h => by
      have hc : c ≠ 37 := h c (by simp)
      have hr := validEscapes_of_no_pct (fun d hd => h d (List.mem_cons_of_mem _ hd))
      rw [validEscapes.eq_def]
      simp only [if_neg hc, hr]

theorem unescapeBytes_of_no_pct : ∀ {s : GoStr}, (∀ c ∈ s, c ≠ 37) →
    unescapeBytes s = s
  | [], _ => rfl
  | c :: rest, h => by
      have hc : c ≠ 37 := h c (by simp)
      have hr := unescapeBytes_of_no_pct (fun d hd => h d (List.mem_cons_of_mem _ hd))
      rw [unescapeBytes.eq_def]
      simp only [if_neg hc, hr]

theorem takeWhile_ne_append {b : Nat} {x y : GoStr} (hx : ∀ c ∈ x, c ≠ b) :
    (x ++ b :: y).takeWhile (fun c => c != b) = x := by
  induction x with
  | nil => simp [List.takeWhile]
  | cons c rest ih =>
      have hc : (c != b) = true := by simpa using hx c (by simp)
      simp only [List.cons_append, List.takeWhile, hc]
      exact congrArg (c :: ·) (ih (fun d hd => hx d (by simp [hd])))

theorem dropWhile_ne_append {b : Nat} {x y : GoStr} (hx : ∀ c ∈ x, c ≠ b) :
    (x ++ b :: y).dropWhile (fun c => c != b) = b :: y := by
  induction x with
  | nil => simp [List.dropWhile]
  | cons c rest ih =>
      have hc : (c != b) = true := by simpa using hx c (by simp)
      simp only [List.cons_append, List.dropWhile, hc]
      exact ih (fun d hd => hx d (by simp [hd]))

theorem contains_append_mid {b : Nat} (x y : GoStr) :
    (x ++ b :: y).contains b = true := by
  induction x with
  | nil => simp [List.contains_cons]
  | cons c rest ih => simp [List.contains_cons, ih]

theorem splitN2_append {b : Nat} {x y : GoStr} (hx : ∀ c ∈ x, c ≠ b) :
    splitN2 b (x ++ b :: y) = some (x, y) := by
  simp [splitN2, contains_append_mid, takeWhile_ne_append hx, dropWhile_ne_append hx]

theorem splitLast_of_nmem {b : Nat} : ∀ {s : GoStr}, (∀ c ∈ s, c ≠ b) →
    splitLast b s = none
  | [], _ => rfl
  | c :: rest, h => by
      have hc : c ≠ b := h c (by simp)
      have hr : splitLast b rest = none :=
        splitLast_of_nmem (fun d hd => h d (List.mem_cons_of_mem _ hd))
      simp [splitLast, hr, hc]

theorem splitLast_append {b : Nat} {x y : GoStr} (hy : ∀ c ∈ y, c ≠ b) :
    splitLast b (x ++ b :: y) = some (x, y) := by
  induction x with
  | nil => simp [splitLast, splitLast_of_nmem hy]
  | cons c rest ih => simp [splitLast, ih]

theorem mem_of_mem_takeWhile {p : Nat → Bool} : ∀ {s : GoStr} {c : Nat},
    c ∈ s.takeWhile p → c ∈ s
  | [], _, h => by simp [List.takeWhile] at h
  | a :: rest, c, h => by
      cases hp : p a with
      | true =>
          simp only [List.takeWhile, hp] at h
          rcases List.mem_cons.mp h with h | h
          · simp [h]
          · exact List.mem_cons_of_mem _ (mem_of_mem_takeWhile h)
      | false =>
          simp only [List.takeWhile, hp] at h
          simp at h

/-! ### Helper lemmas: base64 -/

theorem chunk3Induction {P : GoStr → Prop} (h0 : P []) (h1 : ∀ a, P [a])
    (h2 : ∀ a b, P [a, b]) (h3 : ∀ a b c rest, P rest → P (a :: b :: c :: rest)) :
    ∀ s, P s
  | [] => h0
  | [a] => h1 a
  | [a, b] => h2 a b
  | a :: b :: c :: rest => h3 a b c rest (chunk3Induction h0 h1 h2 h3 rest)

theorem b64IndexStd_charStd : ∀ i < 64, b64IndexStd (b64CharStd i) = some i := by decide

theorem b64IndexURL_charURL : ∀ i < 64, b64IndexURL (b64CharURL i) = some i := by decide

theorem b64IndexURL_charStd :
    ∀ i < 64, b64IndexURL (b64CharStd i) = none ∨ b64IndexURL (b64CharStd i) = some i := by
  decide

theorem b64CharStd_ne_pad : ∀ i < 64, b64CharStd i ≠ 61 := by decide

theorem b64CharURL_ne_pad : ∀ i < 64, b64CharURL i ≠ 61 := by decide

theorem b64IndexURL_pad : b64IndexURL 61 = none := by decide

theorem b64CharURL_ne_pct : ∀ i < 64, b64CharURL i ≠ 37 := by decide

theorem b64CharStd_ne_pct : ∀ i < 64, b64CharStd i ≠ 37 := by decide

theorem b64Encode_mem {ch : Nat → Nat} {pad : Bool} : ∀ {s : GoStr}, (∀ x ∈ s, x < 256) →
    ∀ y ∈ b64Encode ch pad s, (∃ i, i < 64 ∧ y = ch i) ∨ y = 61 := by
  intro s
  induction s using chunk3Induction with
  | h0 => intro _ y hy; simp [b64Encode] at hy
  | h1 a =>
      intro hb y hy
      have ha : a < 256 := hb a (by simp)
      simp only [b64Encode] at hy
      rcases List.mem_append.mp hy with hy | hy
      · rcases List.mem_cons.mp hy with hy | hy
        · exact Or.inl ⟨a / 4, by omega, hy⟩
        · rcases List.mem_cons.mp hy with hy | hy
          · exact Or.inl ⟨a % 4 * 16, by omega, hy⟩
          · simp at hy
      · cases pad <;> simp_all
  | h2 a b =>
      intro hb y hy
      have ha : a < 256 := hb a (by simp)
      have hbb : b < 256 := hb b (by simp)
      simp only [b64Encode] at hy
      rcases List.mem_append.mp hy with hy | hy
      · rcases List.mem_cons.mp hy with hy | hy
        · exact Or.inl ⟨a / 4, by omega, hy⟩
        · rcases List.mem_cons.mp hy with hy | hy
          · exact Or.inl ⟨a % 4 * 16 + b / 16, by omega, hy⟩
          · rcases List.mem_cons.mp hy with hy | hy
            · exact Or.inl ⟨b % 16 * 4, by omega, hy⟩
            · simp at hy
      · cases pad <;> simp_all
  | h3 a b c rest ih =>
      intro hb y hy
      have ha : a < 256 := hb a (by simp)
      have hbb : b < 256 := hb b (by simp)
      have hc : c < 256 := hb c (by simp)
      simp only [b64Encode] at hy
      rcases List.mem_cons.mp hy with hy | hy
      · exact Or.inl ⟨a / 4, by omega, hy⟩
      rcases List.mem_cons.mp hy with hy | hy
      · exact Or.inl ⟨a % 4 * 16 + b / 16, by omega, hy⟩
      rcases List.mem_cons.mp hy with hy | hy
      · exact Or.inl ⟨b % 16 * 4 + c / 64, by omega, hy⟩
      rcases List.mem_cons.mp hy with hy | hy
      · exact Or.inl ⟨c % 64, by omega, hy⟩
      exact ih (fun x hx => hb x (by simp [hx])) y hy

theorem b64DecodeRaw_encode {ch : Nat → Nat} {idx : Nat → Option Nat}
    (hinv : ∀ i < 64, idx (ch i) = some i) :
    ∀ {s : GoStr}, (∀ x ∈ s, x < 256) → b64DecodeRaw idx (b64Encode ch false s) = some s := by
  intro s
  induction s using chunk3Induction with
  | h0 => intro _; rfl
  | h1 a =>
      intro hb
      have ha : a < 256 := hb a (by simp)
      have e1 : idx (ch (a / 4)) = some (a / 4) := hinv _ (by omega)
      have e2 : idx (ch (a % 4 * 16)) = some (a % 4 * 16) := hinv _ (by omega)
      simp only [b64Encode, Bool.false_eq_true, if_false, List.append_nil, b64DecodeRaw, e1, e2]
      simp only [Option.some.injEq, List.cons.injEq, and_true]
      omega
  | h2 a b =>
      intro hb
      have ha : a < 256 := hb a (by simp)
      have hbb : b < 256 := hb b (by simp)
      have e1 : idx (ch (a / 4)) = some (a / 4) := hinv _ (by omega)
      have e2 : idx (ch (a % 4 * 16 + b / 16)) = some (a % 4 * 16 + b / 16) := hinv _ (by omega)
      have e3 : idx (ch (b % 16 * 4)) = some (b % 16 * 4) := hinv _ (by omega)
      simp only [b64Encode, Bool.false_eq_true, if_false, List.append_nil, b64DecodeRaw, e1, e2, e3]
      simp only [Option.some.injEq, List.cons.injEq, and_true]
      omega
  | h3 a b c rest ih =>
      intro hb
      have ha : a < 256 := hb a (by simp)
      have hbb : b < 256 := hb b (by simp)
      have hc : c < 256 := hb c (by simp)
      have e1 : idx (ch (a / 4)) = some (a / 4) := hinv _ (by omega)
      have e2 : idx (ch (a % 4 * 16 + b / 16)) = some (a % 4 * 16 + b / 16) := hinv _ (by omega)
      have e3 : idx (ch (b % 16 * 4 + c / 64)) = some (b % 16 * 4 + c / 64) := hinv _ (by omega)
      have e4 : idx (ch (c % 64)) = some (c % 64) := hinv _ (by omega)
      have etail : b64DecodeRaw idx (b64Encode ch false rest) = some rest :=
        ih (fun x hx => hb x (by simp [hx]))
      simp only [b64Encode, b64DecodeRaw, e1, e2, e3, e4, etail]
      simp only [Option.some.injEq, List.cons.injEq, and_true]
      omega

theorem b64DecodePad_encode {ch : Nat → Nat} {idx : Nat → Option Nat}
    (hinv : ∀ i < 64, idx (ch i) = some i) (hne : ∀ i < 64, ch i ≠ 61) :
    ∀ {s : GoStr}, (∀ x ∈ s, x < 256) → b64DecodePad idx (b64Encode ch true s) = some s := by
  intro s
  induction s using chunk3Induction with
  | h0 => intro _; rfl
  | h1 a =>
      intro hb
      have ha : a < 256 := hb a (by simp)
      have e1 : idx (ch (a / 4)) = some (a / 4) := hinv _ (by omega)
      have e2 : idx (ch (a % 4 * 16)) = some (a % 4 * 16) := hinv _ (by omega)
      simp only [b64Encode, if_true, List.cons_append, List.nil_append, b64DecodePad]
      rw [if_pos (by simp)]
      simp only [e1, e2, Option.some.injEq, List.cons.injEq, and_true]
      omega
  | h2 a b =>
      intro hb
      have ha : a < 256 := hb a (by simp)
      have hbb : b < 256 := hb b (by simp)
      have e1 : idx (ch (a / 4)) = some (a / 4) := hinv _ (by omega)
      have e2 : idx (ch (a % 4 * 16 + b / 16)) = some (a % 4 * 16 + b / 16) := hinv _ (by omega)
      have e3 : idx (ch (b % 16 * 4)) = some (b % 16 * 4) := hinv _ (by omega)
      have hn3 : ch (b % 16 * 4) ≠ 61 := hne _ (by omega)
      simp only [b64Encode, if_true, List.cons_append, List.nil_append, b64DecodePad]
      rw [if_neg (by simp [hn3]), if_pos (by simp)]
      simp only [e1, e2, e3, Option.some.injEq, List.cons.injEq, and_true]
      omega
  | h3 a b c rest ih =>
      intro hb
      have ha : a < 256 := hb a (by simp)
      have hbb : b < 256 := hb b (by simp)
      have hc : c < 256 := hb c (by simp)
      have e1 : idx (ch (a / 4)) = some (a / 4) := hinv _ (by omega)
      have e2 : idx (ch (a % 4 * 16 + b / 16)) = some (a % 4 * 16 + b / 16) := hinv _ (by omega)
      have e3 : idx (ch (b % 16 * 4 + c / 64)) = some (b % 16 * 4 + c / 64) := hinv _ (by omega)
      have e4 : idx (ch (c % 64)) = some (c % 64) := hinv _ (by omega)
      have hn3 : ch (b % 16 * 4 + c / 64) ≠ 61 := hne _ (by omega)
      have hn4 : ch (c % 64) ≠ 61 := hne _ (by omega)
      have etail : b64DecodePad idx (b64Encode ch true rest) = some rest :=
        ih (fun x hx => hb x (by simp [hx]))
      simp only [b64Encode, b64DecodePad]
      rw [if_neg (by simp [hn3]), if_neg (by simp [hn4])]
      simp only [e1, e2, e3, e4, etail, Option.some.injEq, List.cons.injEq, and_true]
      omega

theorem b64DecodeRaw_url_of_encodeStd :
    ∀ {s : GoStr}, (∀ x ∈ s, x < 256) → ∀ {d : GoStr},
      b64DecodeRaw b64IndexURL (b64Encode b64CharStd true s) = some d → d = s := by
  intro s
  induction s using chunk3Induction with
  | h0 => intro _ d hd; simpa [b64Encode, b64DecodeRaw] using hd.symm
  | h1 a =>
      intro hb d hd
      have ha : a < 256 := hb a (by simp)
      exfalso
      simp only [b64Encode, if_true, List.cons_append, List.nil_append, b64DecodeRaw,
        b64IndexURL_pad] at hd
      rcases b64IndexURL_charStd (a / 4) (by omega) with h1 | h1 <;>
        rcases b64IndexURL_charStd (a % 4 * 16) (by omega) with h2 | h2 <;>
        simp [h1, h2] at hd
  | h2 a b =>
      intro hb d hd
      have ha : a < 256 := hb a (by simp)
      have hbb : b < 256 := hb b (by simp)
      exfalso
      simp only [b64Encode, if_true, List.cons_append, List.nil_append, b64DecodeRaw,
        b64IndexURL_pad] at hd
      rcases b64IndexURL_charStd (a / 4) (by omega) with h1 | h1 <;>
        rcases b64IndexURL_charStd (a % 4 * 16 + b / 16) (by omega) with h2 | h2 <;>
        rcases b64IndexURL_charStd (b % 16 * 4) (by omega) with h3 | h3 <;>
        simp [h1, h2, h3] at hd
  | h3 a b c rest ih =>
      intro hb d hd
      have ha : a < 256 := hb a (by simp)
      have hbb : b < 256 := hb b (by simp)
      have hc : c < 256 := hb c (by simp)
      have hrest : ∀ x ∈ rest, x < 256 := fun x hx => hb x (by simp [hx])
      simp only [b64Encode, b64DecodeRaw] at hd
      rcases b64IndexURL_charStd (a / 4) (by omega) with h1 | h1 <;>
        rcases b64IndexURL_charStd (a % 4 * 16 + b / 16) (by omega) with h2 | h2 <;>
        rcases b64IndexURL_charStd (b % 16 * 4 + c / 64) (by omega) with h3 | h3 <;>
        rcases b64IndexURL_charStd (c % 64) (by omega) with h4 | h4 <;>
        simp only [h1, h2, h3, h4] at hd
      all_goals try exact absurd hd (by simp)
      cases htail : b64DecodeRaw b64IndexURL (b64Encode b64CharStd true rest) with
      | none => rw [htail] at hd; exact absurd hd (by simp)
      | some t =>
          rw [htail] at hd
          have ht : t = rest := ih hrest htail
          simp only [Option.some.injEq] at hd
          subst hd
          subst ht
          simp only [List.cons.injEq, and_true]
          omega

/-! ### Helper lemmas: byte classes appearing in ss URIs -/

theorem contains_false {b : Nat} : ∀ {s : GoStr}, (∀ c ∈ s, c ≠ b) →
    s.contains b = false
  | [], _ => rfl
  | c :: rest, h => by
      have hc : c ≠ b := h c (by simp)
      have hr := @contains_false b rest (fun d hd => h d (List.mem_cons_of_mem _ hd))
      simp only [List.contains_cons, hr, Bool.or_false]
      simpa using Ne.symm hc

theorem urlAlphabetFacts :
    ∀ i < 64, validUserinfoByte (b64CharURL i) = true ∧ b64CharURL i ≠ 47 ∧
      b64CharURL i ≠ 63 ∧ b64CharURL i ≠ 35 ∧ b64CharURL i ≠ 64 ∧ b64CharURL i ≠ 58 ∧
      32 ≤ b64CharURL i ∧ b64CharURL i ≠ 127 := by
  decide

theorem padByteFacts :
    validUserinfoByte 61 = true ∧ (61 : Nat) ≠ 47 ∧ (61 : Nat) ≠ 63 ∧ (61 : Nat) ≠ 35 ∧
      (61 : Nat) ≠ 64 ∧ (61 : Nat) ≠ 58 ∧ (32 : Nat) ≤ 61 ∧ (61 : Nat) ≠ 127 := by
  decide

theorem stdAlphabetFacts :
    ∀ i < 64, b64CharStd i = 47 ∨
      (validUserinfoByte (b64CharStd i) = true ∧ b64CharStd i ≠ 63 ∧ b64CharStd i ≠ 35 ∧
        b64CharStd i ≠ 64 ∧ b64CharStd i ≠ 58 ∧ 32 ≤ b64CharStd i ∧ b64CharStd i ≠ 127 ∧
        b64CharStd i ≠ 91 ∧ b64CharStd i ≠ 93 ∧ b64CharStd i ≠ 37) := by
  decide

theorem stdAlphabetLegacyFacts :
    ∀ i < 64, b64CharStd i ≠ 35 ∧ b64CharStd i ≠ 64 ∧ b64CharStd i ≠ 58 ∧
      32 ≤ b64CharStd i ∧ b64CharStd i ≠ 127 ∧ b64CharStd i ≠ 91 ∧ b64CharStd i ≠ 93 ∧
      b64CharStd i ≠ 37 ∧ b64CharStd i ≠ 63 := by
  decide

theorem hostByteFacts {c : Nat} (h : isHostByte c = true) :
    32 ≤ c ∧ c < 256 ∧ c ≠ 127 ∧ c ≠ 47 ∧ c ≠ 63 ∧ c ≠ 35 ∧ c ≠ 64 ∧ c ≠ 58 ∧ c ≠ 91 ∧
      c ≠ 93 ∧ c ≠ 37 := by
  simp only [isHostByte, Bool.or_eq_true, Bool.and_eq_true, decide_eq_true_eq,
    beq_iff_eq] at h
  omega

theorem digitByteFacts {c : Nat} (h : isDigitByte c = true) :
    32 ≤ c ∧ c < 256 ∧ c ≠ 127 ∧ c ≠ 47 ∧ c ≠ 63 ∧ c ≠ 35 ∧ c ≠ 64 ∧ c ≠ 58 ∧ c ≠ 91 ∧
      c ≠ 93 ∧ c ≠ 37 := by
  simp only [isDigitByte, Bool.and_eq_true, decide_eq_true_eq] at h
  omega

theorem urlParse_modern {enc host port : GoStr}
    (henc : ∀ c ∈ enc, validUserinfoByte c = true ∧ c ≠ 47 ∧ c ≠ 63 ∧ c ≠ 35 ∧ c ≠ 64 ∧
      c ≠ 58 ∧ 32 ≤ c ∧ c ≠ 127)
    (henc37 : ∀ c ∈ enc, c ≠ 37)
    (hhost : ∀ c ∈ host, isHostByte c = true)
    (hport : ∀ c ∈ port, isDigitByte c = true) :
    urlParseModel (gs "ss://" ++ enc ++ 64 :: (host ++ 58 :: port)) =
      some ⟨some enc, host ++ 58 :: port⟩ := by
  have hgs : gs "ss://" = [115, 115, 58, 47, 47] := by rfl
  have hfh := fun c hc => hostByteFacts (hhost c hc)
  have hfp := fun c hc => digitByteFacts (hport c hc)
  have hhpf : ∀ c ∈ host ++ 58 :: port, 32 ≤ c ∧ c ≠ 127 ∧ c ≠ 47 ∧ c ≠ 63 ∧ c ≠ 35 ∧
      c ≠ 64 ∧ c ≠ 91 ∧ c ≠ 93 ∧ c ≠ 37 := by
    intro c hc
    rcases List.mem_append.mp hc with hc | hc
    · have := hfh c hc; omega
    rcases List.mem_cons.mp hc with hc | hc
    · omega
    · have := hfp c hc; omega
  have hany : (gs "ss://" ++ enc ++ 64 :: (host ++ 58 :: port)).any
      (fun c => c < 32 || c == 127) = false := by
    rw [List.any_eq_false]
    intro c hc
    simp only [Bool.or_eq_true, decide_eq_true_eq, beq_iff_eq, not_or]
    rcases List.mem_append.mp hc with hc | hc
    · rcases List.mem_append.mp hc with hc | hc
      · rw [hgs] at hc
        have hv : c = 115 ∨ c = 58 ∨ c = 47 := by simpa using hc
        omega
      · have := henc c hc; omega
    rcases List.mem_cons.mp hc with hc | hc
    · omega
    · have := hhpf c hc; omega
  have hsplit : splitN2 58 (gs "ss://" ++ enc ++ 64 :: (host ++ 58 :: port)) =
      some ([115, 115], 47 :: 47 :: (enc ++ 64 :: (host ++ 58 :: port))) := by
    have heq : gs "ss://" ++ enc ++ 64 :: (host ++ 58 :: port) =
        [115, 115] ++ 58 :: (47 :: 47 :: (enc ++ 64 :: (host ++ 58 :: port))) := by
      simp [hgs]
    rw [heq]
    exact splitN2_append (by decide)
  have hupto : upToFirst 35 (enc ++ 64 :: (host ++ 58 :: port)) =
      enc ++ 64 :: (host ++ 58 :: port) := by
    apply upToFirst_all
    intro c hc
    rcases List.mem_append.mp hc with hc | hc
    · have := henc c hc; omega
    rcases List.mem_cons.mp hc with hc | hc
    · omega
    · have := hhpf c hc; omega
  have htw : (enc ++ 64 :: (host ++ 58 :: port)).takeWhile (fun c => c != 47 && c != 63) =
      enc ++ 64 :: (host ++ 58 :: port) := by
    apply takeWhile_all
    intro c hc
    have hne : c ≠ 47 ∧ c ≠ 63 := by
      rcases List.mem_append.mp hc with hc | hc
      · have := henc c hc; omega
      rcases List.mem_cons.mp hc with hc | hc
      · omega
      · have := hhpf c hc; omega
    simp [hne.1, hne.2]
  have hsl : splitLast 64 (enc ++ 64 :: (host ++ 58 :: port)) =
      some (enc, host ++ 58 :: port) := by
    apply splitLast_append
    intro c hc
    have := hhpf c hc; omega
  have hall : enc.all validUserinfoByte = true :=
    List.all_eq_true.mpr (fun c hc => (henc c hc).1)
  have hph : parseHostModel (host ++ 58 :: port) = some (host ++ 58 :: port) := by
    have h91 : (host ++ 58 :: port).contains 91 = false :=
      contains_false (fun c hc => by have := hhpf c hc; omega)
    have h93 : (host ++ 58 :: port).contains 93 = false :=
      contains_false (fun c hc => by have := hhpf c hc; omega)
    have h37 : (host ++ 58 :: port).contains 37 = false :=
      contains_false (fun c hc => by have := hhpf c hc; omega)
    have hsl2 : splitLast 58 (host ++ 58 :: port) = some (host, port) :=
      splitLast_append (fun c hc => by have := hfp c hc; omega)
    have hpall : port.all isDigitByte = true := List.all_eq_true.mpr hport
    simp only [parseHostModel, h91, h93, h37, Bool.or_self, Bool.or_false,
      Bool.false_eq_true, if_false, hsl2, hpall, if_true]
  have hu58 : upToFirst 58 enc = enc :=
    upToFirst_all (fun c hc => by have := henc c hc; omega)
  have hsch : (decide (([115, 115] : GoStr) = []) || !([115, 115] : GoStr).all isSchemeByte)
      = false := by decide
  simp only [urlParseModel, hany, hsplit, Bool.false_eq_true, if_false]
  simp only [List.take, List.drop, hupto, htw, hsl, hall, hph, hu58]
  simp [hsch, isSchemeByte]
  refine ⟨?_, validEscapes_of_no_pct henc37, unescapeBytes_of_no_pct henc37⟩
  have hdw : List.dropWhile (fun c => c != 35) (enc ++ 64 :: (host ++ 58 :: port)) = [] := by
    apply dropWhile_all
    intro c hc
    have hne : c ≠ 35 := by
      rcases List.mem_append.mp hc with hc | hc
      · have := henc c hc; omega
      rcases List.mem_cons.mp hc with hc | hc
      · omega
      · have := hhpf c hc; omega
    simp [hne]
  rw [hdw]
  rfl

theorem encStd_bytes {s : GoStr} (hb : ∀ x ∈ s, x < 256) :
    ∀ c ∈ b64Encode b64CharStd true s, 32 ≤ c ∧ c ≠ 127 ∧ c ≠ 35 ∧ c ≠ 64 ∧ c ≠ 58 ∧
      c ≠ 91 ∧ c ≠ 93 ∧ c ≠ 37 := by
  intro c hc
  rcases b64Encode_mem hb c hc with ⟨i, hi, rfl⟩ | rfl
  · have := stdAlphabetLegacyFacts i hi; omega
  · omega

theorem urlParse_legacy {enc ext : GoStr}
    (henc : ∀ c ∈ enc, 32 ≤ c ∧ c ≠ 127 ∧ c ≠ 35 ∧ c ≠ 64 ∧ c ≠ 58 ∧ c ≠ 91 ∧
      c ≠ 93 ∧ c ≠ 37)
    (hext : ext = [] ∨ ∃ frag, ext = 35 :: frag ∧ (∀ c ∈ frag, 32 ≤ c ∧ c ≠ 127) ∧
      validEscapes frag = true) :
    urlParseModel (gs "ss://" ++ enc ++ ext) =
      some ⟨none, enc.takeWhile (fun c => c != 47 && c != 63)⟩ := by
  have hgs : gs "ss://" = [115, 115, 58, 47, 47] := by rfl
  have hany : (gs "ss://" ++ enc ++ ext).any (fun c => c < 32 || c == 127) = false := by
    rw [List.any_eq_false]
    intro c hc
    simp only [Bool.or_eq_true, decide_eq_true_eq, beq_iff_eq, not_or]
    rcases List.mem_append.mp hc with hc | hc
    · rcases List.mem_append.mp hc with hc | hc
      · rw [hgs] at hc
        have hv : c = 115 ∨ c = 58 ∨ c = 47 := by simpa using hc
        omega
      · have := henc c hc; omega
    · rcases hext with rfl | ⟨frag, rfl, hfrag, _⟩
      · simp at hc
      · rcases List.mem_cons.mp hc with hc | hc
        · omega
        · have := hfrag c hc; omega
  have hsplit : splitN2 58 (gs "ss://" ++ enc ++ ext) =
      some ([115, 115], 47 :: 47 :: (enc ++ ext)) := by
    have heq : gs "ss://" ++ enc ++ ext =
        [115, 115] ++ 58 :: (47 :: 47 :: (enc ++ ext)) := by
      simp [hgs]
    rw [heq]
    exact splitN2_append (by decide)
  have hupto : upToFirst 35 (enc ++ ext) = enc := by
    rcases hext with rfl | ⟨frag, rfl, _, _⟩
    · rw [List.append_nil]
      exact upToFirst_all (fun c hc => by have := henc c hc; omega)
    · exact takeWhile_ne_append (fun c hc => by have := henc c hc; omega)
  have hAmem : ∀ c ∈ enc.takeWhile (fun c => c != 47 && c != 63), c ∈ enc :=
    fun c hc => mem_of_mem_takeWhile hc
  have hsl : splitLast 64 (enc.takeWhile (fun c => c != 47 && c != 63)) = none :=
    splitLast_of_nmem (fun c hc => by have := henc c (hAmem c hc); omega)
  have hph : parseHostModel (enc.takeWhile (fun c => c != 47 && c != 63)) =
      some (enc.takeWhile (fun c => c != 47 && c != 63)) := by
    have h91 : (enc.takeWhile (fun c => c != 47 && c != 63)).contains 91 = false :=
      contains_false (fun c hc => by have := henc c (hAmem c hc); omega)
    have h93 : (enc.takeWhile (fun c => c != 47 && c != 63)).contains 93 = false :=
      contains_false (fun c hc => by have := henc c (hAmem c hc); omega)
    have h37 : (enc.takeWhile (fun c => c != 47 && c != 63)).contains 37 = false :=
      contains_false (fun c hc => by have := henc c (hAmem c hc); omega)
    have hsl2 : splitLast 58 (enc.takeWhile (fun c => c != 47 && c != 63)) = none :=
      splitLast_of_nmem (fun c hc => by have := henc c (hAmem c hc); omega)
    simp only [parseHostModel, h91, h93, h37, Bool.or_self, Bool.or_false,
      Bool.false_eq_true, if_false, hsl2]
  have hsch : (decide (([115, 115] : GoStr) = []) || !([115, 115] : GoStr).all isSchemeByte)
      = false := by decide
  simp only [urlParseModel, hany, hsplit, Bool.false_eq_true, if_false]
  simp only [List.take, List.drop, hupto, hsl, hph]
  simp [hsch, isSchemeByte]
  rcases hext with rfl | ⟨frag, rfl, _, hfresc⟩
  · have hdw : List.dropWhile (fun c => c != 35) (enc ++ ([] : GoStr)) = [] := by
      apply dropWhile_all
      intro c hc
      rw [List.append_nil] at hc
      have := henc c hc
      simp
      omega
    rw [hdw]
    rfl
  · have hdw : List.dropWhile (fun c => c != 35) (enc ++ 35 :: frag) = 35 :: frag :=
      dropWhile_ne_append (fun c hc => by have := henc c hc; omega)
    rw [hdw]
    exact hfresc

theorem splitHostPort_hp {host port : GoStr}
    (hhost : ∀ c ∈ host, isHostByte c = true) (hport : ∀ c ∈ port, isDigitByte c = true) :
    splitHostPort (host ++ 58 :: port) = some (host, port) := by
  have hsl : splitLast 58 (host ++ 58 :: port) = some (host, port) :=
    splitLast_append (fun c hc => by have := digitByteFacts (hport c hc); omega)
  have h58 : host.contains 58 = false :=
    contains_false (fun c hc => by have := hostByteFacts (hhost c hc); omega)
  have h91 : (host ++ 58 :: port).contains 91 = false := by
    apply contains_false
    intro c hc
    rcases List.mem_append.mp hc with hc | hc
    · have := hostByteFacts (hhost c hc); omega
    rcases List.mem_cons.mp hc with hc | hc
    · omega
    · have := digitByteFacts (hport c hc); omega
  have h93 : (host ++ 58 :: port).contains 93 = false := by
    apply contains_false
    intro c hc
    rcases List.mem_append.mp hc with hc | hc
    · have := hostByteFacts (hhost c hc); omega
    rcases List.mem_cons.mp hc with hc | hc
    · omega
    · have := digitByteFacts (hport c hc); omega
  simp only [splitHostPort, hsl, h58, h91, h93, Bool.or_self, Bool.or_false,
    Bool.false_eq_true, if_false]

theorem parseSS_modern_url {method pw host port : GoStr}
    (hm : ∀ b ∈ method, b < 256) (hmc : 58 ∉ method) (hpw : ∀ b ∈ pw, b < 256)
    (hhost : ∀ c ∈ host, isHostByte c = true) (hport : ∀ c ∈ port, isDigitByte c = true) :
    ParseShadowsocksURL (gs "ss://" ++ b64Encode b64CharURL false (method ++ 58 :: pw) ++
      64 :: (host ++ 58 :: port)) = .ok ⟨host, port, method, pw⟩ := by
  have hbytes : ∀ x ∈ method ++ 58 :: pw, x < 256 := by
    intro x hx
    rcases List.mem_append.mp hx with hx | hx
    · exact hm x hx
    rcases List.mem_cons.mp hx with hx | hx
    · omega
    · exact hpw x hx
  have hencf : ∀ c ∈ b64Encode b64CharURL false (method ++ 58 :: pw),
      validUserinfoByte c = true ∧ c ≠ 47 ∧ c ≠ 63 ∧ c ≠ 35 ∧ c ≠ 64 ∧ c ≠ 58 ∧
        32 ≤ c ∧ c ≠ 127 := by
    intro c hc
    rcases b64Encode_mem hbytes c hc with ⟨i, hi, rfl⟩ | rfl
    · exact urlAlphabetFacts i hi
    · exact padByteFacts
  have henc37 : ∀ c ∈ b64Encode b64CharURL false (method ++ 58 :: pw), c ≠ 37 := by
    intro c hc
    rcases b64Encode_mem hbytes c hc with ⟨i, hi, rfl⟩ | rfl
    · exact b64CharURL_ne_pct i hi
    · omega
  have hurl := urlParse_modern hencf henc37 hhost hport
  have hdec : b64DecodeRaw b64IndexURL (b64Encode b64CharURL false (method ++ 58 :: pw)) =
      some (method ++ 58 :: pw) :=
    b64DecodeRaw_encode b64IndexURL_charURL hbytes
  have hsp2 : splitN2 58 (method ++ 58 :: pw) = some (method, pw) :=
    splitN2_append (fun c hc heq => hmc (heq ▸ hc))
  have hshp := splitHostPort_hp hhost hport
  simp only [ParseShadowsocksURL, hurl, hdec, hsp2, hshp]

theorem parseSS_modern_std {method pw host port : GoStr}
    (hm : ∀ b ∈ method, b < 256) (hmc : 58 ∉ method) (hpw : ∀ b ∈ pw, b < 256)
    (hhost : ∀ c ∈ host, isHostByte c = true) (hport : ∀ c ∈ port, isDigitByte c = true)
    (hns : 47 ∉ b64Encode b64CharStd true (method ++ 58 :: pw)) :
    ParseShadowsocksURL (gs "ss://" ++ b64Encode b64CharStd true (method ++ 58 :: pw) ++
      64 :: (host ++ 58 :: port)) = .ok ⟨host, port, method, pw⟩ := by
  have hbytes : ∀ x ∈ method ++ 58 :: pw, x < 256 := by
    intro x hx
    rcases List.mem_append.mp hx with hx | hx
    · exact hm x hx
    rcases List.mem_cons.mp hx with hx | hx
    · omega
    · exact hpw x hx
  have hencf : ∀ c ∈ b64Encode b64CharStd true (method ++ 58 :: pw),
      validUserinfoByte c = true ∧ c ≠ 47 ∧ c ≠ 63 ∧ c ≠ 35 ∧ c ≠ 64 ∧ c ≠ 58 ∧
        32 ≤ c ∧ c ≠ 127 := by
    intro c hc
    have hc47 : c ≠ 47 := fun h => hns (h ▸ hc)
    rcases b64Encode_mem hbytes c hc with ⟨i, hi, rfl⟩ | rfl
    · rcases stdAlphabetFacts i hi with h | h
      · exact absurd h hc47
      · exact ⟨h.1, hc47, h.2.1, h.2.2.1, h.2.2.2.1, h.2.2.2.2.1, h.2.2.2.2.2.1,
          h.2.2.2.2.2.2.1⟩
    · exact padByteFacts
  have henc37 : ∀ c ∈ b64Encode b64CharStd true (method ++ 58 :: pw), c ≠ 37 := by
    intro c hc
    rcases b64Encode_mem hbytes c hc with ⟨i, hi, rfl⟩ | rfl
    · exact b64CharStd_ne_pct i hi
    · omega
  have hurl := urlParse_modern hencf henc37 hhost hport
  have hsp2 : splitN2 58 (method ++ 58 :: pw) = some (method, pw) :=
    splitN2_append (fun c hc heq => hmc (heq ▸ hc))
  have hshp := splitHostPort_hp hhost hport
  cases hdec : b64DecodeRaw b64IndexURL (b64Encode b64CharStd true (method ++ 58 :: pw)) with
  | some d =>
      have hd : d = method ++ 58 :: pw := b64DecodeRaw_url_of_encodeStd hbytes hdec
      subst hd
      simp only [ParseShadowsocksURL, hurl, hdec, hsp2, hshp]
  | none =>
      have hpad : b64DecodePad b64IndexStd (b64Encode b64CharStd true (method ++ 58 :: pw)) =
          some (method ++ 58 :: pw) :=
        b64DecodePad_encode b64IndexStd_charStd b64CharStd_ne_pad hbytes
      simp only [ParseShadowsocksURL, hurl, hdec, hpad, hsp2, hshp]

theorem parseSS_legacy {method pw host port ext : GoStr}
    (hm : ∀ b ∈ method, b < 256) (hmc : 58 ∉ method) (hpw : ∀ b ∈ pw, b < 256)
    (hhost : ∀ c ∈ host, isHostByte c = true) (hport : ∀ c ∈ port, isDigitByte c = true)
    (hext : ext = [] ∨ ∃ frag, ext = 35 :: frag ∧ (∀ c ∈ frag, 32 ≤ c ∧ c ≠ 127) ∧
      validEscapes frag = true) :
    ParseShadowsocksURL (gs "ss://" ++
        b64Encode b64CharStd true (method ++ 58 :: pw ++ 64 :: (host ++ 58 :: port)) ++ ext) =
      .ok ⟨host, port, method, pw⟩ := by
  have hbytes : ∀ x ∈ method ++ 58 :: pw ++ 64 :: (host ++ 58 :: port), x < 256 := by
    intro x hx
    rcases List.mem_append.mp hx with hx | hx
    · rcases List.mem_append.mp hx with hx | hx
      · exact hm x hx
      rcases List.mem_cons.mp hx with hx | hx
      · omega
      · exact hpw x hx
    rcases List.mem_cons.mp hx with hx | hx
    · omega
    rcases List.mem_append.mp hx with hx | hx
    · have := hostByteFacts (hhost x hx); omega
    rcases List.mem_cons.mp hx with hx | hx
    · omega
    · have := digitByteFacts (hport x hx); omega
  have hencf := encStd_bytes hbytes
  have hurl := urlParse_legacy hencf hext
  have h5 : (gs "ss://" ++
      b64Encode b64CharStd true (method ++ 58 :: pw ++ 64 :: (host ++ 58 :: port)) ++
        ext).take 5 = gs "ss://" := rfl
  have hdrp : (gs "ss://" ++
      b64Encode b64CharStd true (method ++ 58 :: pw ++ 64 :: (host ++ 58 :: port)) ++
        ext).drop 5 =
      b64Encode b64CharStd true (method ++ 58 :: pw ++ 64 :: (host ++ 58 :: port)) ++ ext := rfl
  have hfr : upToFirst 35
      (b64Encode b64CharStd true (method ++ 58 :: pw ++ 64 :: (host ++ 58 :: port)) ++ ext) =
      b64Encode b64CharStd true (method ++ 58 :: pw ++ 64 :: (host ++ 58 :: port)) := by
    rcases hext with rfl | ⟨frag, rfl, _, _⟩
    · rw [List.append_nil]
      exact upToFirst_all (fun c hc => by have := hencf c hc; omega)
    · exact takeWhile_ne_append (fun c hc => by have := hencf c hc; omega)
  have hpad : b64DecodePad b64IndexStd
      (b64Encode b64CharStd true (method ++ 58 :: pw ++ 64 :: (host ++ 58 :: port))) =
      some (method ++ 58 :: pw ++ 64 :: (host ++ 58 :: port)) :=
    b64DecodePad_encode b64IndexStd_charStd b64CharStd_ne_pad hbytes
  have hsl64 : splitLast 64 (method ++ 58 :: pw ++ 64 :: (host ++ 58 :: port)) =
      some (method ++ 58 :: pw, host ++ 58 :: port) := by
    apply splitLast_append
    intro c hc
    rcases List.mem_append.mp hc with hc | hc
    · have := hostByteFacts (hhost c hc); omega
    rcases List.mem_cons.mp hc with hc | hc
    · omega
    · have := digitByteFacts (hport c hc); omega
  have hsp2 : splitN2 58 (method ++ 58 :: pw) = some (method, pw) :=
    splitN2_append (fun c hc heq => hmc (heq ▸ hc))
  have hshp := splitHostPort_hp hhost hport
  simp only [ParseShadowsocksURL, hurl, h5, hdrp, hfr, hpad, hsl64, hsp2, hshp,
    reduceIte]

/-! ### Helper lemmas: float64 rounding -/

theorem bitsAux_zero : ∀ fuel, bitsAux fuel 0 = 0
  | 0 => rfl
  | _ + 1 => rfl

theorem bitsAux_spec : ∀ (fuel n : Nat), n ≤ fuel → 0 < n →
    1 ≤ bitsAux fuel n ∧ 2 ^ (bitsAux fuel n - 1) ≤ n ∧ n < 2 ^ bitsAux fuel n := by
  intro fuel
  induction fuel with
  | zero => intro n h1 h2; omega
  | succ f ih =>
      intro n h1 h2
      rw [show bitsAux (f + 1) n = if n = 0 then 0 else bitsAux f (n / 2) + 1 from rfl]
      rw [if_neg (by omega)]
      by_cases hn : n / 2 = 0
      · have hone : n = 1 := by omega
        subst hone
        simp [hn, bitsAux_zero]
      · have hle : n / 2 ≤ f := by omega
        obtain ⟨hL1, hL2, hL3⟩ := ih (n / 2) hle (by omega)
        set L := bitsAux f (n / 2) with hLdef
        have hpow : 2 ^ L = 2 * 2 ^ (L - 1) := by
          rw [← pow_succ']
          congr 1
          omega
        refine ⟨by omega, ?_, ?_⟩
        · rw [show L + 1 - 1 = L from by omega, hpow]
          omega
        · rw [pow_succ]
          omega

theorem bitLen_spec {n : Nat} (h : 0 < n) :
    1 ≤ bitLen n ∧ 2 ^ (bitLen n - 1) ≤ n ∧ n < 2 ^ bitLen n :=
  bitsAux_spec n n le_rfl h

theorem flExp_spec {q : ℚ} (hq : 0 < q) :
    (2 : ℚ) ^ flExp q ≤ q ∧ q < (2 : ℚ) ^ (flExp q + 1) := by
  have hnum : 0 < q.num := Rat.num_pos.mpr hq
  have ha : 0 < q.num.toNat := by omega
  have hb : 0 < q.den := q.den_pos
  obtain ⟨hA1, hA2, hA3⟩ := bitLen_spec ha
  obtain ⟨hB1, hB2, hB3⟩ := bitLen_spec hb
  have hqeq : q = ((q.num.toNat : ℕ) : ℚ) / ((q.den : ℕ) : ℚ) := by
    have hZ : (q.num.toNat : ℤ) = q.num := Int.toNat_of_nonneg (le_of_lt hnum)
    have hcast : ((q.num.toNat : ℕ) : ℚ) = ((q.num : ℤ) : ℚ) := by
      exact_mod_cast hZ
    rw [hcast]
    exact (Rat.num_div_den q).symm
  have hcA1 : ((2 ^ (bitLen q.num.toNat - 1) : ℕ) : ℚ) =
      (2 : ℚ) ^ ((bitLen q.num.toNat : Int) - 1) := by
    push_cast
    rw [← zpow_natCast]
    congr 1
    omega
  have hcA : ((2 ^ bitLen q.num.toNat : ℕ) : ℚ) =
      (2 : ℚ) ^ ((bitLen q.num.toNat : Int)) := by
    push_cast
    rw [← zpow_natCast]
  have hcB1 : ((2 ^ (bitLen q.den - 1) : ℕ) : ℚ) = (2 : ℚ) ^ ((bitLen q.den : Int) - 1) := by
    push_cast
    rw [← zpow_natCast]
    congr 1
    omega
  have hcB : ((2 ^ bitLen q.den : ℕ) : ℚ) = (2 : ℚ) ^ ((bitLen q.den : Int)) := by
    push_cast
    rw [← zpow_natCast]
  have hlow : (2 : ℚ) ^ ((bitLen q.num.toNat : Int) - (bitLen q.den : Int) - 1) < q := by
    have h1 : (2 : ℚ) ^ ((bitLen q.num.toNat : Int) - (bitLen q.den : Int) - 1) =
        ((2 ^ (bitLen q.num.toNat - 1) : ℕ) : ℚ) / ((2 ^ bitLen q.den : ℕ) : ℚ) := by
      rw [hcA1, hcB, ← zpow_sub₀ (two_ne_zero)]
      congr 1
      ring
    have step1 : ((2 ^ (bitLen q.num.toNat - 1) : ℕ) : ℚ) / ((2 ^ bitLen q.den : ℕ) : ℚ) <
        ((2 ^ (bitLen q.num.toNat - 1) : ℕ) : ℚ) / ((q.den : ℕ) : ℚ) := by
      apply div_lt_div_of_pos_left
      · positivity
      · exact_mod_cast hb
      · exact_mod_cast hB3
    have step2 : ((2 ^ (bitLen q.num.toNat - 1) : ℕ) : ℚ) / ((q.den : ℕ) : ℚ) ≤
        ((q.num.toNat : ℕ) : ℚ) / ((q.den : ℕ) : ℚ) := by
      apply (div_le_div_iff_of_pos_right (by exact_mod_cast hb)).mpr
      exact_mod_cast hA2
    calc (2 : ℚ) ^ ((bitLen q.num.toNat : Int) - (bitLen q.den : Int) - 1)
        = ((2 ^ (bitLen q.num.toNat - 1) : ℕ) : ℚ) / ((2 ^ bitLen q.den : ℕ) : ℚ) := h1
      _ < ((2 ^ (bitLen q.num.toNat - 1) : ℕ) : ℚ) / ((q.den : ℕ) : ℚ) := step1
      _ ≤ ((q.num.toNat : ℕ) : ℚ) / ((q.den : ℕ) : ℚ) := step2
      _ = q := hqeq.symm
  have hupp : q < (2 : ℚ) ^ ((bitLen q.num.toNat : Int) - (bitLen q.den : Int) + 1) := by
    have h1 : (2 : ℚ) ^ ((bitLen q.num.toNat : Int) - (bitLen q.den : Int) + 1) =
        ((2 ^ bitLen q.num.toNat : ℕ) : ℚ) / ((2 ^ (bitLen q.den - 1) : ℕ) : ℚ) := by
      rw [hcA, hcB1, ← zpow_sub₀ (two_ne_zero)]
      congr 1
      ring
    have step1 : ((q.num.toNat : ℕ) : ℚ) / ((q.den : ℕ) : ℚ) ≤
        ((q.num.toNat : ℕ) : ℚ) / ((2 ^ (bitLen q.den - 1) : ℕ) : ℚ) := by
      apply div_le_div_of_nonneg_left
      · positivity
      · positivity
      · exact_mod_cast hB2
    have step2 : ((q.num.toNat : ℕ) : ℚ) / ((2 ^ (bitLen q.den - 1) : ℕ) : ℚ) <
        ((2 ^ bitLen q.num.toNat : ℕ) : ℚ) / ((2 ^ (bitLen q.den - 1) : ℕ) : ℚ) := by
      apply (div_lt_div_iff_of_pos_right (by positivity)).mpr
      exact_mod_cast hA3
    calc q = ((q.num.toNat : ℕ) : ℚ) / ((q.den : ℕ) : ℚ) := hqeq
      _ ≤ ((q.num.toNat : ℕ) : ℚ) / ((2 ^ (bitLen q.den - 1) : ℕ) : ℚ) := step1
      _ < ((2 ^ bitLen q.num.toNat : ℕ) : ℚ) / ((2 ^ (bitLen q.den - 1) : ℕ) : ℚ) := step2
      _ = (2 : ℚ) ^ ((bitLen q.num.toNat : Int) - (bitLen q.den : Int) + 1) := h1.symm
  unfold flExp
  by_cases hcase : q < (2 : ℚ) ^ ((bitLen q.num.toNat : Int) - (bitLen q.den : Int))
  · rw [if_pos hcase]
    constructor
    · exact le_of_lt hlow
    · rw [show (bitLen q.num.toNat : Int) - (bitLen q.den : Int) - 1 + 1 =
        (bitLen q.num.toNat : Int) - (bitLen q.den : Int) from by ring]
      exact hcase
  · rw [if_neg hcase]
    exact ⟨not_lt.mp hcase, hupp⟩

theorem rte_lb (q : ℚ) : ⌊q⌋ ≤ rte q := by
  unfold rte
  split_ifs <;> omega

theorem rte_ub (q : ℚ) : rte q ≤ ⌊q⌋ + 1 := by
  unfold rte
  split_ifs <;> omega

theorem rte_mono {q1 q2 : ℚ} (h : q1 ≤ q2) : rte q1 ≤ rte q2 := by
  have hf : ⌊q1⌋ ≤ ⌊q2⌋ := Int.floor_le_floor h
  by_cases heq : (⌊q1⌋ : ℤ) = ⌊q2⌋
  · have hr : q1 - ⌊q1⌋ ≤ q2 - ⌊q2⌋ := by
      rw [heq]
      linarith
    unfold rte
    split_ifs <;> first | omega | linarith
  · have h2 := rte_ub q1
    have h3 := rte_lb q2
    omega

theorem scaled_bracket {q : ℚ} (hq : 0 < q) :
    (2 : ℚ) ^ (52 : ℤ) ≤ q / (2 : ℚ) ^ (flExp q - 52) ∧
    q / (2 : ℚ) ^ (flExp q - 52) < (2 : ℚ) ^ (53 : ℤ) := by
  obtain ⟨h1, h2⟩ := flExp_spec hq
  have hpow : (0 : ℚ) < (2 : ℚ) ^ (flExp q - 52) := zpow_pos (by norm_num) _
  constructor
  · have := (div_le_div_iff_of_pos_right hpow).mpr h1
    calc (2 : ℚ) ^ (52 : ℤ) = (2 : ℚ) ^ flExp q / (2 : ℚ) ^ (flExp q - 52) := by
          rw [← zpow_sub₀ (two_ne_zero)]
          congr 1
          ring
      _ ≤ q / (2 : ℚ) ^ (flExp q - 52) := this
  · have := (div_lt_div_iff_of_pos_right hpow).mpr h2
    calc q / (2 : ℚ) ^ (flExp q - 52) < (2 : ℚ) ^ (flExp q + 1) / (2 : ℚ) ^ (flExp q - 52) :=
          this
      _ = (2 : ℚ) ^ (53 : ℤ) := by
          rw [← zpow_sub₀ (two_ne_zero)]
          congr 1
          ring

theorem rte_scaled_lb {q : ℚ} (hq : 0 < q) :
    (2 ^ 52 : ℤ) ≤ rte (q / (2 : ℚ) ^ (flExp q - 52)) := by
  obtain ⟨h1, _⟩ := scaled_bracket hq
  have hfl : (2 ^ 52 : ℤ) ≤ ⌊q / (2 : ℚ) ^ (flExp q - 52)⌋ := by
    apply Int.le_floor.mpr
    calc ((2 ^ 52 : ℤ) : ℚ) = (2 : ℚ) ^ (52 : ℤ) := by norm_num
      _ ≤ q / (2 : ℚ) ^ (flExp q - 52) := h1
  exact le_trans hfl (rte_lb _)

theorem rte_scaled_ub {q : ℚ} (hq : 0 < q) :
    rte (q / (2 : ℚ) ^ (flExp q - 52)) ≤ (2 ^ 53 : ℤ) := by
  obtain ⟨_, h2⟩ := scaled_bracket hq
  have hfl : ⌊q / (2 : ℚ) ^ (flExp q - 52)⌋ < (2 ^ 53 : ℤ) := by
    apply Int.floor_lt.mpr
    calc q / (2 : ℚ) ^ (flExp q - 52) < (2 : ℚ) ^ (53 : ℤ) := h2
      _ = ((2 ^ 53 : ℤ) : ℚ) := by norm_num
  have := rte_ub (q / (2 : ℚ) ^ (flExp q - 52))
  omega

theorem roundToDouble_nonneg (q : ℚ) : 0 ≤ roundToDouble q := by
  unfold roundToDouble
  split_ifs with hq
  · exact le_refl 0
  · have hq0 : 0 < q := lt_of_not_le hq
    have hlb := rte_scaled_lb hq0
    have hpow : (0 : ℚ) < (2 : ℚ) ^ (flExp q - 52) := zpow_pos (by norm_num) _
    have : (0 : ℚ) ≤ ((rte (q / (2 : ℚ) ^ (flExp q - 52)) : ℤ) : ℚ) := by
      exact_mod_cast le_trans (by positivity) hlb
    positivity

theorem roundToDouble_lb {q : ℚ} (hq : 0 < q) :
    (2 : ℚ) ^ flExp q ≤ roundToDouble q := by
  unfold roundToDouble
  rw [if_neg (not_le.mpr hq)]
  have hlb := rte_scaled_lb hq
  have hpow : (0 : ℚ) < (2 : ℚ) ^ (flExp q - 52) := zpow_pos (by norm_num) _
  have hcast : ((2 ^ 52 : ℤ) : ℚ) ≤ ((rte (q / (2 : ℚ) ^ (flExp q - 52)) : ℤ) : ℚ) := by
    exact_mod_cast hlb
  calc (2 : ℚ) ^ flExp q = ((2 ^ 52 : ℤ) : ℚ) * (2 : ℚ) ^ (flExp q - 52) := by
        rw [show ((2 ^ 52 : ℤ) : ℚ) = (2 : ℚ) ^ (52 : ℤ) from by norm_num,
          ← zpow_add₀ (two_ne_zero (α := ℚ))]
        congr 1
        ring
    _ ≤ ((rte (q / (2 : ℚ) ^ (flExp q - 52)) : ℤ) : ℚ) * (2 : ℚ) ^ (flExp q - 52) := by
        exact mul_le_mul_of_nonneg_right hcast (le_of_lt hpow)

theorem roundToDouble_ub {q : ℚ} (hq : 0 < q) :
    roundToDouble q ≤ (2 : ℚ) ^ (flExp q + 1) := by
  unfold roundToDouble
  rw [if_neg (not_le.mpr hq)]
  have hub := rte_scaled_ub hq
  have hpow : (0 : ℚ) < (2 : ℚ) ^ (flExp q - 52) := zpow_pos (by norm_num) _
  have hcast : ((rte (q / (2 : ℚ) ^ (flExp q - 52)) : ℤ) : ℚ) ≤ ((2 ^ 53 : ℤ) : ℚ) := by
    exact_mod_cast hub
  calc ((rte (q / (2 : ℚ) ^ (flExp q - 52)) : ℤ) : ℚ) * (2 : ℚ) ^ (flExp q - 52)
      ≤ ((2 ^ 53 : ℤ) : ℚ) * (2 : ℚ) ^ (flExp q - 52) :=
        mul_le_mul_of_nonneg_right hcast (le_of_lt hpow)
    _ = (2 : ℚ) ^ (flExp q + 1) := by
        rw [show ((2 ^ 53 : ℤ) : ℚ) = (2 : ℚ) ^ (53 : ℤ) from by norm_num,
          ← zpow_add₀ (two_ne_zero (α := ℚ))]
        congr 1
        ring

theorem flExp_mono {q1 q2 : ℚ} (h1 : 0 < q1) (h : q1 ≤ q2) : flExp q1 ≤ flExp q2 := by
  have h2 : 0 < q2 := lt_of_lt_of_le h1 h
  obtain ⟨ha1, _⟩ := flExp_spec h1
  obtain ⟨_, hb2⟩ := flExp_spec h2
  have : (2 : ℚ) ^ flExp q1 < (2 : ℚ) ^ (flExp q2 + 1) := by
    calc (2 : ℚ) ^ flExp q1 ≤ q1 := ha1
      _ ≤ q2 := h
      _ < (2 : ℚ) ^ (flExp q2 + 1) := hb2
  have := (zpow_lt_zpow_iff_right₀ (by norm_num : (1 : ℚ) < 2)).mp this
  omega

theorem roundToDouble_mono {q1 q2 : ℚ} (h : q1 ≤ q2) :
    roundToDouble q1 ≤ roundToDouble q2 := by
  by_cases h1 : q1 ≤ 0
  · rw [show roundToDouble q1 = 0 from by unfold roundToDouble; rw [if_pos h1]]
    exact roundToDouble_nonneg q2
  · have h1p : 0 < q1 := lt_of_not_le h1
    have h2p : 0 < q2 := lt_of_lt_of_le h1p h
    have hke : flExp q1 ≤ flExp q2 := flExp_mono h1p h
    by_cases hkeq : flExp q1 = flExp q2
    · unfold roundToDouble
      rw [if_neg (not_le.mpr h1p), if_neg (not_le.mpr h2p), hkeq]
      have hpow : (0 : ℚ) < (2 : ℚ) ^ (flExp q2 - 52) := zpow_pos (by norm_num) _
      have hmono : rte (q1 / (2 : ℚ) ^ (flExp q2 - 52)) ≤
          rte (q2 / (2 : ℚ) ^ (flExp q2 - 52)) := by
        apply rte_mono
        exact (div_le_div_iff_of_pos_right hpow).mpr h
      have hcast : ((rte (q1 / (2 : ℚ) ^ (flExp q2 - 52)) : ℤ) : ℚ) ≤
          ((rte (q2 / (2 : ℚ) ^ (flExp q2 - 52)) : ℤ) : ℚ) := by exact_mod_cast hmono
      exact mul_le_mul_of_nonneg_right hcast (le_of_lt hpow)
    · have hklt : flExp q1 + 1 ≤ flExp q2 := by omega
      calc roundToDouble q1 ≤ (2 : ℚ) ^ (flExp q1 + 1) := roundToDouble_ub h1p
        _ ≤ (2 : ℚ) ^ flExp q2 := zpow_le_zpow_right₀ (by norm_num) hklt
        _ ≤ roundToDouble q2 := roundToDouble_lb h2p

theorem goFloatRank_mono {p1 p2 n : Nat} (h : p1 ≤ p2) :
    goFloatRank p1 n ≤ goFloatRank p2 n := by
  unfold goFloatRank
  have h0 : roundToDouble (p1 : ℚ) ≤ roundToDouble (p2 : ℚ) :=
    roundToDouble_mono (by exact_mod_cast h)
  have h1 : flDiv (roundToDouble (p1 : ℚ)) 100 ≤ flDiv (roundToDouble (p2 : ℚ)) 100 := by
    apply roundToDouble_mono
    apply (div_le_div_iff_of_pos_right (by norm_num)).mpr h0
  have hm : (0 : ℚ) ≤ roundToDouble ((n - 1 : Nat) : ℚ) := roundToDouble_nonneg _
  have h2 : flMul (flDiv (roundToDouble (p1 : ℚ)) 100) (roundToDouble ((n - 1 : Nat) : ℚ)) ≤
      flMul (flDiv (roundToDouble (p2 : ℚ)) 100) (roundToDouble ((n - 1 : Nat) : ℚ)) := by
    apply roundToDouble_mono
    exact mul_le_mul_of_nonneg_right h1 hm
  have h3 : flAdd (flMul (flDiv (roundToDouble (p1 : ℚ)) 100)
        (roundToDouble ((n - 1 : Nat) : ℚ))) (1 / 2) ≤
      flAdd (flMul (flDiv (roundToDouble (p2 : ℚ)) 100)
        (roundToDouble ((n - 1 : Nat) : ℚ))) (1 / 2) := by
    apply roundToDouble_mono
    linarith
  have h4 := Int.floor_le_floor h3
  omega

/-! ### Helper lemmas: statistics -/

theorem percentile_eq_getD {l : List Nat} (hne : l.length ≠ 0) (p : Nat) :
    percentile l p = l.getD (min (goFloatRank p l.length) (l.length - 1)) 0 := by
  unfold percentile
  rw [if_neg hne]
  by_cases h : l.length ≤ goFloatRank p l.length
  · rw [if_pos h]
    congr 1
    omega
  · rw [if_neg h]
    congr 1
    omega

theorem sorted_getD_mono {l : List Nat} (hs : l.Sorted (· ≤ ·)) {i j : Nat}
    (hij : i ≤ j) (hj : j < l.length) : l.getD i 0 ≤ l.getD j 0 := by
  have hi : i < l.length := lt_of_le_of_lt hij hj
  rw [List.getD_eq_getElem l 0 hi, List.getD_eq_getElem l 0 hj]
  exact hs.rel_get_of_le hij

theorem headD_eq_getD {l : List Nat} (hne : l ≠ []) : l.headD 0 = l.getD 0 0 := by
  cases l with
  | nil => simp at hne
  | cons a as => rfl

theorem getLastD_eq_getD {l : List Nat} :
    l.getLastD 0 = l.getD (l.length - 1) 0 := by
  rw [List.getLastD_eq_getLast?, List.getLast?_eq_getElem?, List.getD_eq_getElem?_getD]

theorem length_mul_le_sum {m : Nat} : ∀ {l : List Nat}, (∀ x ∈ l, m ≤ x) →
    l.length * m ≤ l.sum
  | [], _ => by simp
  | a :: as, h => by
      have ha : m ≤ a := h a (by simp)
      have hr := @length_mul_le_sum m as (fun x hx => h x (by simp [hx]))
      simp only [List.length_cons, List.sum_cons]
      calc (as.length + 1) * m = as.length * m + m := by ring
    _ ≤ as.sum + a := by omega
    _ = a + as.sum := by omega

theorem sum_le_length_mul {m : Nat} : ∀ {l : List Nat}, (∀ x ∈ l, x ≤ m) →
    l.sum ≤ l.length * m
  | [], _ => by simp
  | a :: as, h => by
      have ha : a ≤ m := h a (by simp)
      have hr := @sum_le_length_mul m as (fun x hx => h x (by simp [hx]))
      simp only [List.length_cons, List.sum_cons]
      calc a + as.sum ≤ m + as.length * m := by omega
    _ = (as.length + 1) * m := by ring

/-! ### Helper lemmas: dispatcher -/

theorem dispatchFold_getElem {α : Type} (f : GoStr → α) (addrs : List GoStr) :
    ∀ (order : List Nat) (acc : List (Option α)) (j : Nat), j < acc.length →
      (order.foldl (fun a idx => a.set idx (some (f (addrs.getD idx [])))) acc)[j]? =
        if j ∈ order then some (some (f (addrs.getD j []))) else acc[j]? := by
  intro order
  induction order with
  | nil => intro acc j hj; simp
  | cons idx rest ih =>
      intro acc j hj
      have hlen : (acc.set idx (some (f (addrs.getD idx [])))).length = acc.length := by simp
      rw [List.foldl_cons, ih _ j (by omega)]
      by_cases hjr : j ∈ rest
      · rw [if_pos hjr, if_pos (List.mem_cons_of_mem _ hjr)]
      · rw [if_neg hjr]
        by_cases hje : j = idx
        · subst hje
          rw [if_pos (List.mem_cons_self _ _), List.getElem?_set_self]
          omega
        · rw [List.getElem?_set_ne (fun h => hje h.symm)]
          rw [if_neg (by simp [hje, hjr])]

theorem dispatchFold_length {α : Type} (f : GoStr → α) (addrs : List GoStr) :
    ∀ (order : List Nat) (acc : List (Option α)),
      (order.foldl (fun a idx => a.set idx (some (f (addrs.getD idx [])))) acc).length =
        acc.length
  | [], _ => rfl
  | idx :: rest, acc => by
      rw [List.foldl_cons, dispatchFold_length f addrs rest]
      simp

theorem dispatchExec_eq {α : Type} (f : GoStr → α) (addrs : List GoStr) (order : List Nat)
    (hperm : order.Perm (List.range addrs.length)) :
    dispatchExec f addrs order = addrs.map (fun a => some (f a)) := by
  apply List.ext_getElem?
  intro j
  have hrep : (List.replicate addrs.length (none : Option α)).length = addrs.length := by
    simp
  by_cases hj : j < addrs.length
  · rw [dispatchExec, dispatchFold_getElem f addrs order _ j (by omega)]
    have hmem : j ∈ order := hperm.mem_iff.mpr (List.mem_range.mpr hj)
    rw [if_pos hmem, List.getElem?_map, List.getElem?_eq_getElem hj]
    have hgetd : addrs.getD j [] = addrs[j] := by
      rw [List.getD_eq_getElem?_getD, List.getElem?_eq_getElem hj]
      rfl
    rw [hgetd]
    rfl
  · have hlen : (dispatchExec f addrs order).length = addrs.length := by
      rw [dispatchExec, dispatchFold_length f addrs order]
      simp
    rw [List.getElem?_eq_none (by omega), List.getElem?_eq_none (by simp; omega)]

/-! ### Helper lemmas: semaphore transition system -/

theorem dispatchInvariant {cap n : Nat} {s : DispatchState}
    (h : DispatchReachable cap n s) :
    s.running ≤ cap ∧ s.pending + s.running + s.done = n := by
  induction h with
  | init => simp
  | step _ hstep ih =>
      cases hstep with
      | start p r d hr =>
          simp only at ih ⊢
          omega
      | finish p r d =>
          simp only at ih ⊢
          omega

theorem dispatchProgress {cap : Nat} {s : DispatchState} (hcap : 0 < cap)
    (hstuck : ∀ t, ¬ DispatchStep cap s t) : s.pending = 0 ∧ s.running = 0 := by
  obtain ⟨p, r, d⟩ := s
  cases r with
  | succ r0 => exact absurd (DispatchStep.finish p r0 d) (hstuck _)
  | zero =>
      cases p with
      | zero => exact ⟨rfl, rfl⟩
      | succ p0 => exact absurd (DispatchStep.start p0 0 d hcap) (hstuck _)

/-! ### Claim theorems -/

/-- C1: for every non-empty input list and every completion order (any
permutation of the task indices), the dispatcher loop of `checker.CheckMany`
and `bench.RunMany` — replayed by `dispatchExec` over the per-address probe
`f` with configuration and network oracles fixed — produces exactly one
outcome per input, and slot `i` holds the probe result of input address `i`,
independent of which probe finished first. -/
theorem claim_C1_dispatch_order {α : Type} (f : GoStr → α) (addrs : List GoStr)
    (order : List Nat) (hne : addrs ≠ [])
    (hperm : order.Perm (List.range addrs.length)) :
    (dispatchExec f addrs order).length = addrs.length ∧
    ∀ j (hj : j < addrs.length),
      (dispatchExec f addrs order)[j]? = some (some (f addrs[j])) := by
  have heq := dispatchExec_eq f addrs order hperm
  constructor
  · rw [heq, List.length_map]
  · intro j hj
    rw [heq, List.getElem?_map, List.getElem?_eq_getElem hj]
    rfl

/-- Witness for C1 at a concrete two-address batch executed in reversed
completion order. -/
theorem claim_C1_witness :
    ([gs "a", gs "bc"] : List GoStr) ≠ [] ∧
    ([1, 0] : List Nat).Perm (List.range ([gs "a", gs "bc"] : List GoStr).length) ∧
    (dispatchExec List.length [gs "a", gs "bc"] [1, 0]).length = 2 ∧
    (dispatchExec List.length [gs "a", gs "bc"] [1, 0])[0]? = some (some 1) ∧
    (dispatchExec List.length [gs "a", gs "bc"] [1, 0])[1]? = some (some 2) := by
  have h := claim_C1_dispatch_order List.length [gs "a", gs "bc"] [1, 0]
    (by decide) (by decide)
  exact ⟨by decide, by decide, h.1, h.2 0 (by decide), h.2 1 (by decide)⟩

/-- C8: in the semaphore model of `CheckMany`'s admission gate, with capacity
the coerced concurrency limit, every reachable state runs at most `cap`
probes at once; the default replaces any non-positive configured limit and is
positive; the task count is conserved; a state with no enabled step has all
`n` probes completed; and every step strictly decreases a natural measure, so
every maximal schedule terminates with all probes done. -/
theorem claim_C8_concurrency_bound (c : Int) (n : Nat) (s : DispatchState)
    (hreach : DispatchReachable (coerceConcurrency c) n s) :
    0 < coerceConcurrency c ∧
    s.running ≤ coerceConcurrency c ∧
    s.pending + s.running + s.done = n ∧
    ((∀ t, ¬ DispatchStep (coerceConcurrency c) s t) →
      s.pending = 0 ∧ s.running = 0 ∧ s.done = n) ∧
    (∀ t, DispatchStep (coerceConcurrency c) s t →
      2 * t.pending + t.running < 2 * s.pending + s.running) := by
  have hcap : 0 < coerceConcurrency c := by
    unfold coerceConcurrency
    split
    · omega
    · omega
  obtain ⟨hrun, hsum⟩ := dispatchInvariant hreach
  refine ⟨hcap, hrun, hsum, ?_, ?_⟩
  · intro hstuck
    obtain ⟨hp, hr⟩ := dispatchProgress hcap hstuck
    exact ⟨hp, hr, by omega⟩
  · intro t hstep
    cases hstep with
    | start p r d hr => simp only; omega
    | finish p r d => simp only; omega

/-- Witness for C8 at the initial state of a two-probe dispatch whose
configured concurrency is non-positive (exercising the default). -/
theorem claim_C8_witness :
    0 < coerceConcurrency (-1) ∧
    (⟨2, 0, 0⟩ : DispatchState).running ≤ coerceConcurrency (-1) ∧
    (⟨2, 0, 0⟩ : DispatchState).pending + (⟨2, 0, 0⟩ : DispatchState).running +
      (⟨2, 0, 0⟩ : DispatchState).done = 2 ∧
    ((∀ t, ¬ DispatchStep (coerceConcurrency (-1)) (⟨2, 0, 0⟩ : DispatchState) t) →
      (⟨2, 0, 0⟩ : DispatchState).pending = 0 ∧ (⟨2, 0, 0⟩ : DispatchState).running = 0 ∧
        (⟨2, 0, 0⟩ : DispatchState).done = 2) ∧
    (∀ t, DispatchStep (coerceConcurrency (-1)) (⟨2, 0, 0⟩ : DispatchState) t →
      2 * t.pending + t.running <
        2 * (⟨2, 0, 0⟩ : DispatchState).pending + (⟨2, 0, 0⟩ : DispatchState).running) :=
  claim_C8_concurrency_bound (-1) 2 ⟨2, 0, 0⟩ DispatchReachable.init

set_option maxRecDepth 1000000 in
unseal Rat.mul Rat.add Rat.inv Rat.sub in
/-- C4 (corrected): `bench.percentile` on a non-empty ascending-sorted list
returns the element at the binary64 rank
`int(float64(p)/100.0*float64(count-1) + 0.5)` (`goFloatRank`, the code's
float64 arithmetic modelled exactly), clamped to the last valid index.  That
float rank coincides with the spec's exact round-half-up rank (`specRank`)
at the documented points, and the three documented evaluations hold on the
ten-element list; but the two ranks differ in general — see the
counterexample at P = 29 with 51 samples — so the claim's universal
round-half-up wording is false of the program. -/
theorem claim_C4_percentile_rank (sorted : List Nat) (p : Nat)
    (hne : sorted ≠ []) (hp : p ≤ 100) (hsorted : sorted.Sorted (· ≤ ·)) :
    percentile sorted p =
      sorted.getD (min (goFloatRank p sorted.length) (sorted.length - 1)) 0 ∧
    goFloatRank 50 10 = (specRank 50 10).toNat ∧
    goFloatRank 95 10 = (specRank 95 10).toNat ∧
    goFloatRank 0 10 = (specRank 0 10).toNat ∧
    percentile [10, 20, 30, 40, 50, 60, 70, 80, 90, 100] 50 = 60 ∧
    percentile [10, 20, 30, 40, 50, 60, 70, 80, 90, 100] 95 = 100 ∧
    percentile [10, 20, 30, 40, 50, 60, 70, 80, 90, 100] 0 = 10 := by
  have hlen : sorted.length ≠ 0 := fun h => hne (List.length_eq_zero.mp h)
  exact ⟨percentile_eq_getD hlen p, by decide, by decide, by decide,
    by decide, by decide, by decide⟩

/-- Witness for C4 on the documented ten-element latency list at P = 95. -/
theorem claim_C4_witness :
    percentile [10, 20, 30, 40, 50, 60, 70, 80, 90, 100] 95 =
      ([10, 20, 30, 40, 50, 60, 70, 80, 90, 100] : List Nat).getD
        (min (goFloatRank 95 ([10, 20, 30, 40, 50, 60, 70, 80, 90, 100] :
          List Nat).length)
          (([10, 20, 30, 40, 50, 60, 70, 80, 90, 100] : List Nat).length - 1)) 0 :=
  (claim_C4_percentile_rank [10, 20, 30, 40, 50, 60, 70, 80, 90, 100] 95
    (by decide) (by decide) (by decide)).1

set_option maxRecDepth 1000000 in
unseal Rat.mul Rat.add Rat.inv Rat.sub in
/-- Counterexample for C4 as stated: on the ascending-sorted 51-element list
`0,1,…,50` at P = 29, the spec's exact round-half-up rank is
`round(29/100 × 50) = round(14.5) = 15`, but Go computes
`0.29*50 = 14.499999999999998` in float64 and `int(14.999999999999998) = 14`,
so `percentile` returns the element at index 14, not the claimed
element at index 15. -/
theorem claim_C4_counterexample :
    (List.range 51).Sorted (· ≤ ·) ∧ List.range 51 ≠ [] ∧ (29 : Nat) ≤ 100 ∧
    percentile (List.range 51) 29 = 14 ∧
    (specRank 29 (List.range 51).length).toNat = 15 ∧
    (List.range 51).getD
      (min (specRank 29 (List.range 51).length).toNat
        ((List.range 51).length - 1)) 0 = 15 ∧
    (14 : Nat) ≠ 15 := by
  decide

/-- C2 (corrected): provided `buildClient` succeeds (the address parses), the
loss rate of `bench.Run` is 1 exactly when no sample succeeded and 0 exactly
when the successful count equals the coerced sample count.  The original
claim fails on the client-construction-failure path, see the
counterexample. -/
theorem claim_C2_loss_rate (address : GoStr) (opts : BenchOptions)
    (sampleOracle : Nat → Option Nat) (speedOracle : Option (Nat × Rat))
    (hclient : (urlParseModel address).isSome) :
    ((Run address opts sampleOracle speedOracle).LossRate = 1 ↔
      (Run address opts sampleOracle speedOracle).Successful = 0) ∧
    ((Run address opts sampleOracle speedOracle).LossRate = 0 ↔
      (Run address opts sampleOracle speedOracle).Successful = coerceSamples opts.Samples) := by
  have hnn : ¬ (urlParseModel address).isNone = true := by
    cases h : urlParseModel address
    · rw [h] at hclient; simp at hclient
    · simp
  unfold Run
  rw [if_neg hnn]
  have hspos : 0 < coerceSamples opts.Samples := by
    unfold coerceSamples
    split
    · omega
    · omega
  have hcast : ((coerceSamples opts.Samples : ℚ)) ≠ 0 := by
    exact_mod_cast Nat.pos_iff_ne_zero.mp hspos
  have hlats : ((List.range (coerceSamples opts.Samples)).filterMap sampleOracle).length ≤
      coerceSamples opts.Samples := by
    calc ((List.range (coerceSamples opts.Samples)).filterMap sampleOracle).length
        ≤ (List.range (coerceSamples opts.Samples)).length :=
          List.length_filterMap_le _ _
      _ = coerceSamples opts.Samples := List.length_range _
  by_cases hemp : ((List.range (coerceSamples opts.Samples)).filterMap sampleOracle).isEmpty
  · rw [if_pos hemp]
    refine ⟨by simp, ?_, ?_⟩
    · intro h
      norm_num at h
    · intro h
      simp only at h
      omega
  · rw [if_neg hemp]
    have hlpos : 0 < ((List.range (coerceSamples opts.Samples)).filterMap sampleOracle).length := by
      cases hl : (List.range (coerceSamples opts.Samples)).filterMap sampleOracle
      · rw [hl] at hemp; simp at hemp
      · simp [hl]
    simp only
    constructor
    · constructor
      · intro h
        rw [div_eq_one_iff_eq hcast] at h
        have hlen0 : ((((List.range (coerceSamples opts.Samples)).filterMap
            sampleOracle).length : ℚ)) = 0 := by linarith
        exact absurd (Nat.cast_eq_zero.mp hlen0) (by omega)
      · intro h
        exact absurd h (by omega)
    · constructor
      · intro h
        rw [div_eq_zero_iff] at h
        rcases h with h | h
        · have : ((((List.range (coerceSamples opts.Samples)).filterMap
              sampleOracle).length : ℚ)) = (coerceSamples opts.Samples : ℚ) := by linarith
          exact_mod_cast this
        · exact absurd h hcast
      · intro h
        rw [h]
        simp

/-- Witness for C2 on a parsing proxy address with three requested samples,
all succeeding. -/
theorem claim_C2_witness :
    (urlParseModel (gs "http://h:80")).isSome ∧
    (((Run (gs "http://h:80") ⟨3, []⟩ (fun _ => some 7) none).LossRate = 1 ↔
      (Run (gs "http://h:80") ⟨3, []⟩ (fun _ => some 7) none).Successful = 0) ∧
    ((Run (gs "http://h:80") ⟨3, []⟩ (fun _ => some 7) none).LossRate = 0 ↔
      (Run (gs "http://h:80") ⟨3, []⟩ (fun _ => some 7) none).Successful =
        coerceSamples (3 : Int))) :=
  ⟨by decide,
    claim_C2_loss_rate (gs "http://h:80") ⟨3, []⟩ (fun _ => some 7) none (by decide)⟩

/-- Counterexample for C2 as stated: for the address `http://h:xx` Go's
`url.Parse` fails (non-numeric port), `buildClient` returns an error, and
`Run` returns early with `Successful = 0` but `LossRate = 0`, violating
`loss_rate = 1 ↔ successful = 0` on the client-construction-failure path. -/
theorem claim_C2_counterexample :
    ¬ (((Run (gs "http://h:xx") ⟨5, []⟩ (fun _ => none) none).LossRate = 1 ↔
        (Run (gs "http://h:xx") ⟨5, []⟩ (fun _ => none) none).Successful = 0)) := by
  decide

theorem sortedStatsBounds {l : List Nat} (hs : l.Sorted (· ≤ ·)) (hne : l ≠ []) :
    l.headD 0 ≤ percentile l 50 ∧ percentile l 50 ≤ percentile l 95 ∧
    percentile l 95 ≤ l.getLastD 0 ∧ l.headD 0 ≤ avg l ∧ avg l ≤ l.getLastD 0 := by
  have hlen : l.length ≠ 0 := fun h => hne (List.length_eq_zero.mp h)
  have hlpos : 0 < l.length := Nat.pos_of_ne_zero hlen
  have h50 := percentile_eq_getD hlen 50
  have h95 := percentile_eq_getD hlen 95
  have hkidx : goFloatRank 50 l.length ≤ goFloatRank 95 l.length :=
    goFloatRank_mono (by omega)
  have hk50 : min (goFloatRank 50 l.length) (l.length - 1) ≤
      min (goFloatRank 95 l.length) (l.length - 1) := by omega
  have hk95lt : min (goFloatRank 95 l.length) (l.length - 1) < l.length := by omega
  have hk50lt : min (goFloatRank 50 l.length) (l.length - 1) < l.length := by omega
  have hhead : l.headD 0 = l.getD 0 0 := headD_eq_getD hne
  have hlast : l.getLastD 0 = l.getD (l.length - 1) 0 := getLastD_eq_getD
  have hminmem : ∀ x ∈ l, l.getD 0 0 ≤ x := by
    intro x hx
    obtain ⟨i, hi, rfl⟩ := List.mem_iff_getElem.mp hx
    rw [← List.getD_eq_getElem l 0 hi]
    exact sorted_getD_mono hs (Nat.zero_le i) hi
  have hmaxmem : ∀ x ∈ l, x ≤ l.getD (l.length - 1) 0 := by
    intro x hx
    obtain ⟨i, hi, rfl⟩ := List.mem_iff_getElem.mp hx
    rw [← List.getD_eq_getElem l 0 hi]
    exact sorted_getD_mono hs (by omega) (by omega)
  refine ⟨?_, ?_, ?_, ?_, ?_⟩
  · rw [h50, hhead]
    exact sorted_getD_mono hs (Nat.zero_le _) hk50lt
  · rw [h50, h95]
    exact sorted_getD_mono hs hk50 hk95lt
  · rw [h95, hlast]
    exact sorted_getD_mono hs (by omega) (by omega)
  · rw [hhead]
    unfold avg
    rw [Nat.le_div_iff_mul_le hlpos]
    calc l.getD 0 0 * l.length = l.length * l.getD 0 0 := Nat.mul_comm _ _
      _ ≤ l.sum := length_mul_le_sum hminmem
  · rw [hlast]
    unfold avg
    have hsum : l.sum ≤ l.length * l.getD (l.length - 1) 0 := sum_le_length_mul hmaxmem
    calc l.sum / l.length ≤ l.length * l.getD (l.length - 1) 0 / l.length :=
          Nat.div_le_div_right hsum
      _ = l.getD (l.length - 1) 0 := by
          rw [Nat.mul_div_cancel_left _ hlpos]

/-- C5: every `bench.Run` record with a positive successful count satisfies
`min ≤ p50 ≤ p95 ≤ max` and `min ≤ avg ≤ max`; every record with zero
successful count has all five latency fields zero (on every path: client
construction failure, all samples failed, or the statistics path). -/
theorem claim_C5_latency_invariants (address : GoStr) (opts : BenchOptions)
    (sampleOracle : Nat → Option Nat) (speedOracle : Option (Nat × Rat)) :
    (0 < (Run address opts sampleOracle speedOracle).Successful →
      (Run address opts sampleOracle speedOracle).MinMS ≤
        (Run address opts sampleOracle speedOracle).P50MS ∧
      (Run address opts sampleOracle speedOracle).P50MS ≤
        (Run address opts sampleOracle speedOracle).P95MS ∧
      (Run address opts sampleOracle speedOracle).P95MS ≤
        (Run address opts sampleOracle speedOracle).MaxMS ∧
      (Run address opts sampleOracle speedOracle).MinMS ≤
        (Run address opts sampleOracle speedOracle).AvgMS ∧
      (Run address opts sampleOracle speedOracle).AvgMS ≤
        (Run address opts sampleOracle speedOracle).MaxMS) ∧
    ((Run address opts sampleOracle speedOracle).Successful = 0 →
      (Run address opts sampleOracle speedOracle).MinMS = 0 ∧
      (Run address opts sampleOracle speedOracle).MaxMS = 0 ∧
      (Run address opts sampleOracle speedOracle).AvgMS = 0 ∧
      (Run address opts sampleOracle speedOracle).P50MS = 0 ∧
      (Run address opts sampleOracle speedOracle).P95MS = 0) := by
  unfold Run
  by_cases hurl : (urlParseModel address).isNone = true
  · rw [if_pos hurl]
    exact ⟨fun h => absurd h (by simp), fun _ => ⟨rfl, rfl, rfl, rfl, rfl⟩⟩
  · rw [if_neg hurl]
    by_cases hemp :
        ((List.range (coerceSamples opts.Samples)).filterMap sampleOracle).isEmpty
    · rw [if_pos hemp]
      exact ⟨fun h => absurd h (by simp), fun _ => ⟨rfl, rfl, rfl, rfl, rfl⟩⟩
    · rw [if_neg hemp]
      set lat := (List.range (coerceSamples opts.Samples)).filterMap sampleOracle with hlat
      have hlne : lat ≠ [] := by
        intro h
        rw [h] at hemp
        simp at hemp
      have hsorted : lat.mergeSort.Sorted (· ≤ ·) := List.sorted_mergeSort' lat
      have hslen : lat.mergeSort.length = lat.length := (List.mergeSort_perm lat _).length_eq
      have hsne : lat.mergeSort ≠ [] := by
        intro h
        apply hlne
        apply List.length_eq_zero.mp
        rw [← hslen, h]
        rfl
      obtain ⟨h1, h2, h3, h4, h5⟩ := sortedStatsBounds hsorted hsne
      constructor
      · intro _
        exact ⟨h1, h2, h3, h4, h5⟩
      · intro h
        simp only at h
        exact absurd (List.length_eq_zero.mp h) hlne

/-- Witness for C5 on three successful unsorted samples. -/
theorem claim_C5_witness :
    0 < (Run (gs "http://h:80") ⟨3, []⟩ (fun i => some (30 - 10 * i)) none).Successful ∧
    ((Run (gs "http://h:80") ⟨3, []⟩ (fun i => some (30 - 10 * i)) none).MinMS ≤
      (Run (gs "http://h:80") ⟨3, []⟩ (fun i => some (30 - 10 * i)) none).P50MS ∧
    (Run (gs "http://h:80") ⟨3, []⟩ (fun i => some (30 - 10 * i)) none).P50MS ≤
      (Run (gs "http://h:80") ⟨3, []⟩ (fun i => some (30 - 10 * i)) none).P95MS ∧
    (Run (gs "http://h:80") ⟨3, []⟩ (fun i => some (30 - 10 * i)) none).P95MS ≤
      (Run (gs "http://h:80") ⟨3, []⟩ (fun i => some (30 - 10 * i)) none).MaxMS ∧
    (Run (gs "http://h:80") ⟨3, []⟩ (fun i => some (30 - 10 * i)) none).MinMS ≤
      (Run (gs "http://h:80") ⟨3, []⟩ (fun i => some (30 - 10 * i)) none).AvgMS ∧
    (Run (gs "http://h:80") ⟨3, []⟩ (fun i => some (30 - 10 * i)) none).AvgMS ≤
      (Run (gs "http://h:80") ⟨3, []⟩ (fun i => some (30 - 10 * i)) none).MaxMS) :=
  ⟨by decide,
    (claim_C5_latency_invariants (gs "http://h:80") ⟨3, []⟩
      (fun i => some (30 - 10 * i)) none).1 (by decide)⟩

/-- C9: a failed (or never-attempted) throughput sample leaves `SpeedBps = 0`
without affecting any other field of the benchmark record: `Run` with a
failing speed oracle reports 0, an empty payload URL skips the measurement,
a zero-elapsed download reports 0, and every field other than `SpeedBps`
is independent of the speed oracle. -/
theorem claim_C9_speed_isolation (address : GoStr) (opts : BenchOptions)
    (sampleOracle : Nat → Option Nat) (speedOracle : Option (Nat × Rat)) :
    (Run address opts sampleOracle none).SpeedBps = 0 ∧
    (opts.PayloadURL = [] → (Run address opts sampleOracle speedOracle).SpeedBps = 0) ∧
    (∀ n : Nat, measureSpeed (some (n, (0 : ℚ))) = 0) ∧
    ((Run address opts sampleOracle none).Address =
      (Run address opts sampleOracle speedOracle).Address ∧
    (Run address opts sampleOracle none).Samples =
      (Run address opts sampleOracle speedOracle).Samples ∧
    (Run address opts sampleOracle none).Successful =
      (Run address opts sampleOracle speedOracle).Successful ∧
    (Run address opts sampleOracle none).MinMS =
      (Run address opts sampleOracle speedOracle).MinMS ∧
    (Run address opts sampleOracle none).MaxMS =
      (Run address opts sampleOracle speedOracle).MaxMS ∧
    (Run address opts sampleOracle none).AvgMS =
      (Run address opts sampleOracle speedOracle).AvgMS ∧
    (Run address opts sampleOracle none).P50MS =
      (Run address opts sampleOracle speedOracle).P50MS ∧
    (Run address opts sampleOracle none).P95MS =
      (Run address opts sampleOracle speedOracle).P95MS ∧
    (Run address opts sampleOracle none).LossRate =
      (Run address opts sampleOracle speedOracle).LossRate) := by
  have hms : ∀ n : Nat, measureSpeed (some (n, (0 : ℚ))) = 0 := by
    intro n
    simp [measureSpeed]
  refine ⟨?_, ?_, hms, ?_⟩
  · unfold Run
    by_cases hurl : (urlParseModel address).isNone = true
    · rw [if_pos hurl]
    · rw [if_neg hurl]
      by_cases hemp :
          ((List.range (coerceSamples opts.Samples)).filterMap sampleOracle).isEmpty
      · rw [if_pos hemp]
      · rw [if_neg hemp]
        simp only
        split
        · rfl
        · rfl
  · intro hpay
    unfold Run
    by_cases hurl : (urlParseModel address).isNone = true
    · rw [if_pos hurl]
    · rw [if_neg hurl]
      by_cases hemp :
          ((List.range (coerceSamples opts.Samples)).filterMap sampleOracle).isEmpty
      · rw [if_pos hemp]
      · rw [if_neg hemp]
        simp [hpay]
  · unfold Run
    by_cases hurl : (urlParseModel address).isNone = true
    · rw [if_pos hurl, if_pos hurl]
      exact ⟨rfl, rfl, rfl, rfl, rfl, rfl, rfl, rfl, rfl⟩
    · rw [if_neg hurl, if_neg hurl]
      by_cases hemp :
          ((List.range (coerceSamples opts.Samples)).filterMap sampleOracle).isEmpty
      · rw [if_pos hemp, if_pos hemp]
        exact ⟨rfl, rfl, rfl, rfl, rfl, rfl, rfl, rfl, rfl⟩
      · rw [if_neg hemp, if_neg hemp]
        exact ⟨rfl, rfl, rfl, rfl, rfl, rfl, rfl, rfl, rfl⟩

/-- Witness for C9 with two successful samples, an empty payload URL, and a
successful alternative speed oracle. -/
theorem claim_C9_witness :
    (Run (gs "http://h:80") ⟨2, []⟩ (fun _ => some 4) none).SpeedBps = 0 ∧
    (Run (gs "http://h:80") ⟨2, []⟩ (fun _ => some 4) (some (100, 2))).SpeedBps = 0 ∧
    measureSpeed (some (5, (0 : ℚ))) = 0 ∧
    (Run (gs "http://h:80") ⟨2, []⟩ (fun _ => some 4) none).LossRate =
      (Run (gs "http://h:80") ⟨2, []⟩ (fun _ => some 4) (some (100, 2))).LossRate := by
  obtain ⟨h1, h2, h3, h4⟩ := claim_C9_speed_isolation (gs "http://h:80") ⟨2, []⟩
    (fun _ => some 4) (some (100, 2))
  exact ⟨h1, h2 rfl, h3 5, h4.2.2.2.2.2.2.2.2⟩

/-- C10: when the requested sample count is non-positive and the client is
constructed, the `Samples` field of the returned record still holds the
original non-positive value (it is assigned before the coercion), while the
probe loop and the loss-rate denominator use the coerced value 5 — so the
stored field disagrees with the number of samples actually attempted. -/
theorem claim_C10_samples_field (address : GoStr) (opts : BenchOptions)
    (sampleOracle : Nat → Option Nat) (speedOracle : Option (Nat × Rat))
    (hsneg : opts.Samples ≤ 0) (hclient : (urlParseModel address).isSome) :
    (Run address opts sampleOracle speedOracle).Samples = opts.Samples ∧
    (Run address opts sampleOracle speedOracle).Samples ≤ 0 ∧
    coerceSamples opts.Samples = 5 ∧
    (Run address opts sampleOracle speedOracle).Successful =
      ((List.range 5).filterMap sampleOracle).length ∧
    (0 < (Run address opts sampleOracle speedOracle).Successful →
      (Run address opts sampleOracle speedOracle).LossRate =
        ((5 : ℚ) - ((Run address opts sampleOracle speedOracle).Successful : ℚ)) / 5) := by
  have hnn : ¬ (urlParseModel address).isNone = true := by
    cases h : urlParseModel address
    · rw [h] at hclient; simp at hclient
    · simp
  have hco : coerceSamples opts.Samples = 5 := by
    unfold coerceSamples
    rw [if_pos hsneg]
  unfold Run
  rw [if_neg hnn, hco]
  by_cases hemp : ((List.range 5).filterMap sampleOracle).isEmpty
  · rw [if_pos hemp]
    have hl0 : ((List.range 5).filterMap sampleOracle).length = 0 := by
      rwa [List.isEmpty_iff_length_eq_zero] at hemp
    refine ⟨rfl, hsneg, rfl, hl0.symm, ?_⟩
    intro h
    simp only at h
    omega
  · rw [if_neg hemp]
    refine ⟨rfl, hsneg, rfl, rfl, ?_⟩
    intro _
    simp only
    norm_num

/-- Witness for C10: requested sample count 0, one of the five attempted
samples succeeding. -/
theorem claim_C10_witness :
    (Run (gs "http://h:80") ⟨0, []⟩ (fun i => if i = 0 then some 9 else none)
      none).Samples = 0 ∧
    coerceSamples (0 : Int) = 5 ∧
    (Run (gs "http://h:80") ⟨0, []⟩ (fun i => if i = 0 then some 9 else none)
      none).Successful =
      ((List.range 5).filterMap (fun i => if i = 0 then some 9 else none)).length ∧
    (Run (gs "http://h:80") ⟨0, []⟩ (fun i => if i = 0 then some 9 else none)
      none).LossRate =
      ((5 : ℚ) - ((Run (gs "http://h:80") ⟨0, []⟩
        (fun i => if i = 0 then some 9 else none) none).Successful : ℚ)) / 5 := by
  obtain ⟨h1, h2, h3, h4, h5⟩ := claim_C10_samples_field (gs "http://h:80") ⟨0, []⟩
    (fun i => if i = 0 then some 9 else none) none (by decide) (by decide)
  exact ⟨h1, h3, h4, h5 (by decide)⟩

/-- C6: the two-phase SOCKS5 probe.  Phase-1 dial failure reports dead with
the dial error and zero latency; phase-1 success with phase-2 forward failure
reports dead but keeps the non-zero phase-1 latency and a forward-failure
message distinct from every dial-error message; phase-2 success reports alive
with the phase-2 latency. -/
theorem claim_C6_socks5_phases (address : GoStr) (tcp : Except GoStr Nat)
    (fwd : Except GoStr Nat) (hurl : (urlParseModel address).isSome) :
    (∀ e, tcp = .error e →
      CheckSOCKS5 address tcp true fwd =
        ⟨address, .socks5, false, 0, gs "tcp probe: tcp dial: " ++ e⟩) ∧
    (∀ l e, tcp = .ok l → 0 < l → fwd = .error e →
      (CheckSOCKS5 address tcp true fwd).Alive = false ∧
      (CheckSOCKS5 address tcp true fwd).Latency = l ∧
      (CheckSOCKS5 address tcp true fwd).Latency ≠ 0 ∧
      (CheckSOCKS5 address tcp true fwd).Error = gs "forward check: " ++ e ∧
      (∀ e2, (CheckSOCKS5 address tcp true fwd).Error ≠ gs "tcp probe: tcp dial: " ++ e2)) ∧
    (∀ l d, tcp = .ok l → fwd = .ok d →
      CheckSOCKS5 address tcp true fwd = ⟨address, .socks5, true, d, []⟩) := by
  obtain ⟨u, hu⟩ : ∃ u, urlParseModel address = some u := by
    cases h : urlParseModel address
    · rw [h] at hurl; simp at hurl
    · exact ⟨_, rfl⟩
  refine ⟨?_, ?_, ?_⟩
  · intro e htcp
    subst htcp
    unfold CheckSOCKS5
    rw [hu]
  · intro l e htcp hl hfwd
    subst htcp
    subst hfwd
    unfold CheckSOCKS5
    rw [hu]
    refine ⟨rfl, rfl, ?_, rfl, ?_⟩
    · show l ≠ 0
      omega
    intro e2 heq
    simp only [CheckResult.mk.injEq] at heq
    have : (102 : Nat) :: (gs "orward check: " ++ e) = 116 :: (gs "cp probe: tcp dial: " ++ e2) := heq
    simp at this
  · intro l d htcp hfwd
    subst htcp
    subst hfwd
    unfold CheckSOCKS5
    rw [hu]
    rfl

/-- Witness for C6 at a concrete SOCKS5 address, exercising the
phase-2-failure branch with phase-1 latency 7. -/
theorem claim_C6_witness :
    (urlParseModel (gs "socks5://h:1080")).isSome = true ∧
    ((CheckSOCKS5 (gs "socks5://h:1080") (.ok 7) true (.error (gs "refused"))).Alive = false ∧
    (CheckSOCKS5 (gs "socks5://h:1080") (.ok 7) true (.error (gs "refused"))).Latency = 7 ∧
    (CheckSOCKS5 (gs "socks5://h:1080") (.ok 7) true (.error (gs "refused"))).Latency ≠ 0 ∧
    (CheckSOCKS5 (gs "socks5://h:1080") (.ok 7) true (.error (gs "refused"))).Error =
      gs "forward check: " ++ gs "refused" ∧
    (∀ e2, (CheckSOCKS5 (gs "socks5://h:1080") (.ok 7) true (.error (gs "refused"))).Error ≠
      gs "tcp probe: tcp dial: " ++ e2)) ∧
    CheckSOCKS5 (gs "socks5://h:1080") (.error (gs "timeout")) true (.ok 9) =
      ⟨gs "socks5://h:1080", .socks5, false, 0, gs "tcp probe: tcp dial: " ++ gs "timeout"⟩ ∧
    CheckSOCKS5 (gs "socks5://h:1080") (.ok 7) true (.ok 9) =
      ⟨gs "socks5://h:1080", .socks5, true, 9, []⟩ := by
  refine ⟨by decide, ?_, ?_, ?_⟩
  · exact (claim_C6_socks5_phases (gs "socks5://h:1080") (.ok 7) (.error (gs "refused"))
      (by decide)).2.1 7 (gs "refused") rfl (by decide) rfl
  · exact (claim_C6_socks5_phases (gs "socks5://h:1080") (.error (gs "timeout")) (.ok 9)
      (by decide)).1 (gs "timeout") rfl
  · exact (claim_C6_socks5_phases (gs "socks5://h:1080") (.ok 7) (.ok 9)
      (by decide)).2.2 7 9 rfl rfl

/-- C7: a Shadowsocks address whose URI fails to parse yields an outcome with
`alive = false`, zero latency and a `parse:`-prefixed error, identical for
every network oracle (no network attempt is made); and in a dispatched batch
every slot holds the probe of its own address only, so the failure cannot
affect other addresses. -/
theorem claim_C7_parse_terminal (address : GoStr) (e : GoStr)
    (hparse : ParseShadowsocksURL address = .error e) :
    (∀ net, CheckShadowsocks address net =
      ⟨address, .shadowsocks, false, 0, gs "parse: " ++ e⟩) ∧
    (∀ (netO : GoStr → Except GoStr Nat) (addrs : List GoStr) (order : List Nat),
      order.Perm (List.range addrs.length) →
      ∀ j (hj : j < addrs.length),
        (dispatchExec (fun a => CheckShadowsocks a (netO a)) addrs order)[j]? =
          some (some (CheckShadowsocks addrs[j] (netO addrs[j])))) := by
  constructor
  · intro net
    unfold CheckShadowsocks
    rw [hparse]
  · intro netO addrs order hperm j hj
    rw [dispatchExec_eq _ addrs order hperm, List.getElem?_map,
      List.getElem?_eq_getElem hj]
    rfl

/-- Witness for C7 at the unparsable address `ss://` inside a two-address
batch dispatched in reversed order. -/
theorem claim_C7_witness :
    ParseShadowsocksURL (gs "ss://") = .error (gs "missing @ in legacy ss URI") ∧
    CheckShadowsocks (gs "ss://") (.ok 5) =
      ⟨gs "ss://", .shadowsocks, false, 0,
        gs "parse: " ++ gs "missing @ in legacy ss URI"⟩ ∧
    (dispatchExec (fun a => CheckShadowsocks a (Except.ok 3))
      [gs "ss://", gs "ss://x"] [1, 0])[1]? =
      some (some (CheckShadowsocks (gs "ss://x") (Except.ok 3))) := by
  have h := claim_C7_parse_terminal (gs "ss://") (gs "missing @ in legacy ss URI")
    (by decide)
  refine ⟨by decide, h.1 (.ok 5), ?_⟩
  exact h.2 (fun _ => Except.ok 3) [gs "ss://", gs "ss://x"] [1, 0] (by decide) 1 (by decide)

/-- C3 (corrected): a modern `ss://` URI built from `method:password` (method
colon-free, bytes, host of host bytes, numeric port) round-trips through
`ParseShadowsocksURL` for the unpadded URL-safe encoding always, and for the
padded standard encoding provided the encoding contains no `/` byte (the
counterexample shows the claim fails otherwise); a legacy URI with the padded
standard encoding round-trips, with or without a trailing `#fragment` of
printable bytes whose `%` escapes (if any) are well-formed — `url.Parse`
rejects the whole URI on a malformed fragment escape such as `%zz`. -/
theorem claim_C3_ss_uri_roundtrip (method pw host port frag : GoStr)
    (hm : ∀ b ∈ method, b < 256) (hmc : 58 ∉ method) (hpw : ∀ b ∈ pw, b < 256)
    (hhost : ∀ c ∈ host, isHostByte c = true) (hport : ∀ c ∈ port, isDigitByte c = true)
    (hfrag : ∀ c ∈ frag, 32 ≤ c ∧ c ≠ 127) (hfresc : validEscapes frag = true) :
    ParseShadowsocksURL (gs "ss://" ++ b64Encode b64CharURL false (method ++ 58 :: pw) ++
      64 :: (host ++ 58 :: port)) = .ok ⟨host, port, method, pw⟩ ∧
    (47 ∉ b64Encode b64CharStd true (method ++ 58 :: pw) →
      ParseShadowsocksURL (gs "ss://" ++ b64Encode b64CharStd true (method ++ 58 :: pw) ++
        64 :: (host ++ 58 :: port)) = .ok ⟨host, port, method, pw⟩) ∧
    ParseShadowsocksURL (gs "ss://" ++
      b64Encode b64CharStd true (method ++ 58 :: pw ++ 64 :: (host ++ 58 :: port))) =
      .ok ⟨host, port, method, pw⟩ ∧
    ParseShadowsocksURL (gs "ss://" ++
      b64Encode b64CharStd true (method ++ 58 :: pw ++ 64 :: (host ++ 58 :: port)) ++
      35 :: frag) = .ok ⟨host, port, method, pw⟩ := by
  refine ⟨parseSS_modern_url hm hmc hpw hhost hport,
    fun hns => parseSS_modern_std hm hmc hpw hhost hport hns, ?_,
    parseSS_legacy hm hmc hpw hhost hport (Or.inr ⟨frag, rfl, hfrag, hfresc⟩)⟩
  have h := @parseSS_legacy method pw host port [] hm hmc hpw hhost hport (Or.inl rfl)
  simpa using h

/-- Witness for C3 with `method = aes`, `password = pw`, `host = h`,
`port = 80`, fragment `f`; the padded standard encoding `YWVzOnB3` contains
no `/`. -/
theorem claim_C3_witness :
    ParseShadowsocksURL (gs "ss://" ++ b64Encode b64CharURL false (gs "aes" ++ 58 :: gs "pw") ++
      64 :: (gs "h" ++ 58 :: gs "80")) =
      .ok ⟨gs "h", gs "80", gs "aes", gs "pw"⟩ ∧
    ParseShadowsocksURL (gs "ss://" ++ b64Encode b64CharStd true (gs "aes" ++ 58 :: gs "pw") ++
      64 :: (gs "h" ++ 58 :: gs "80")) =
      .ok ⟨gs "h", gs "80", gs "aes", gs "pw"⟩ ∧
    ParseShadowsocksURL (gs "ss://" ++
      b64Encode b64CharStd true (gs "aes" ++ 58 :: gs "pw" ++ 64 :: (gs "h" ++ 58 :: gs "80"))) =
      .ok ⟨gs "h", gs "80", gs "aes", gs "pw"⟩ ∧
    ParseShadowsocksURL (gs "ss://" ++
      b64Encode b64CharStd true (gs "aes" ++ 58 :: gs "pw" ++ 64 :: (gs "h" ++ 58 :: gs "80")) ++
      35 :: gs "f") =
      .ok ⟨gs "h", gs "80", gs "aes", gs "pw"⟩ := by
  obtain ⟨h1, h2, h3, h4⟩ := claim_C3_ss_uri_roundtrip (gs "aes") (gs "pw") (gs "h")
    (gs "80") (gs "f") (by decide) (by decide) (by decide) (by decide) (by decide)
    (by decide) (by decide)
  exact ⟨h1, h2 (by decide), h3, h4⟩

/-- Counterexample for C3 as stated: for `method = a`, `password = ?` the
padded standard encoding of `a:?` is `YTo/`; Go's `url.Parse` cuts the
authority at the `/`, the userinfo vanishes, and the legacy fallback cannot
decode `YTo/@h:80`, so the padded-variant round trip fails entirely. -/
theorem claim_C3_counterexample :
    ParseShadowsocksURL (gs "ss://" ++ b64Encode b64CharStd true (gs "a" ++ 58 :: gs "?") ++
      64 :: (gs "h" ++ 58 :: gs "80")) ≠
      .ok ⟨gs "h", gs "80", gs "a", gs "?"⟩ ∧
    ParseShadowsocksURL (gs "ss://" ++ b64Encode b64CharStd true (gs "a" ++ 58 :: gs "?") ++
      64 :: (gs "h" ++ 58 :: gs "80")) = .error (gs "base64 decode legacy") ∧
    b64Encode b64CharStd true (gs "a" ++ 58 :: gs "?") = gs "YTo/" := by
  refine ⟨by decide, by decide, by decide⟩
